import Mathlib

/-!
Verification of the WebBandage layout and interaction engine.

The definitions below are a shallow embedding of the TypeScript sources:
the logical graph data model (`types.ts`), the connected-component filter
`filteredData`, the simulation-graph builder, the brush selection handler,
the frozen-selection group drag and the id search handler
(`GraphVisualizer` component and `App.tsx`).  JavaScript numbers are
modelled as real numbers where the code computes with `Math.pow`,
`Math.cos`, `Math.sin`; identifiers are strings, as in the source.
-/

/-- Logical contig node (`AssemblyNode` in types.ts).  `length` is the
base-pair length (integer ≥ 0 per the data model); `coverage` is kept for
structural fidelity but never inspected by the properties below, so it is
modelled as a rational. -/
structure AssemblyNode where
  id : String
  length : Nat
  coverage : ℚ
deriving DecidableEq, Repr

/-- Logical overlap link (`AssemblyLink` in types.ts). -/
structure AssemblyLink where
  id : String
  source : String
  target : String
  overlap : Int
deriving DecidableEq, Repr

/-- The logical graph delivered by the loader (`GraphData` in types.ts). -/
structure GraphData where
  nodes : List AssemblyNode
  links : List AssemblyLink
deriving DecidableEq, Repr

/-- The node-id list of a graph, in load order. -/
def nodeIds (g : GraphData) : List String := g.nodes.map AssemblyNode.id

/-- Undirected adjacency lists exactly as built by the component filter in
`filteredData` (part_001 lines 37-42): for each link, the target is added to
the source's neighbour set when the source is a node id, and the source is
added to the target's neighbour set when the target is a node id; ids that
are not node ids have no adjacency entry (`adj.get(u) || new Set()`). -/
def neighbors (g : GraphData) (u : String) : List String :=
  if u ∈ nodeIds g then
    (g.links.filter (fun l => l.source == u)).map AssemblyLink.target ++
      (g.links.filter (fun l => l.target == u)).map AssemblyLink.source
  else []

/-- One step of the `neighbors.forEach` body of the traversal (part_001
lines 54-56): skip an already-visited id, otherwise mark it visited and
push it on the queue. -/
def visitStep (vq : Finset String × List String) (v : String) :
    Finset String × List String :=
  if v ∈ vq.1 then vq else (insert v vq.1, vq.2 ++ [v])

/-- The stack-based traversal loop of `filteredData` (part_001 lines
50-57).  The JS `queue.pop()` removes the last array element, hence
`getLast?`/`dropLast`; the fuel argument bounds the number of loop
iterations and is instantiated with `fuelBound`, which is proved
sufficient below. -/
def traverse (g : GraphData) :
    Nat → Finset String → List String → List String →
      Finset String × List String
  | 0, visited, _, comp => (visited, comp)
  | fuel + 1, visited, queue, comp =>
    match queue.getLast? with
    | none => (visited, comp)
    | some u =>
      let st := (neighbors g u).foldl visitStep (visited, queue.dropLast)
      traverse g fuel st.1 st.2 (comp ++ [u])

/-- Enough fuel for `traverse`: every id that can ever be enqueued is a
node id or a link endpoint. -/
def fuelBound (g : GraphData) : Nat :=
  g.nodes.length + 2 * g.links.length + 1

/-- The outer `for (const n of data.nodes)` loop of `filteredData`
(part_001 lines 45-59), accumulating the visited set and the kept set:
a component is added to `keep` when its size reaches the threshold. -/
def filterStep (g : GraphData) (t : Int) (acc : Finset String × Finset String)
    (n : AssemblyNode) : Finset String × Finset String :=
  if n.id ∈ acc.1 then acc
  else if t ≤ ((traverse g (fuelBound g) (insert n.id acc.1) [n.id] []).2.length : Int)
    then ((traverse g (fuelBound g) (insert n.id acc.1) [n.id] []).1,
          acc.2 ∪ (traverse g (fuelBound g) (insert n.id acc.1) [n.id] []).2.toFinset)
    else ((traverse g (fuelBound g) (insert n.id acc.1) [n.id] []).1, acc.2)

def filterFold (g : GraphData) (t : Int) : Finset String × Finset String :=
  g.nodes.foldl (filterStep g t) (∅, ∅)

/-- The component filter `filteredData` (part_001 lines 34-63): threshold
`t ≤ 0` returns the input unchanged; otherwise nodes of components of size
`≥ t` are kept, and links are kept when both endpoints are kept. -/
def filteredData (g : GraphData) (t : Int) : GraphData :=
  if t ≤ 0 then g
  else
    let keep := (filterFold g t).2
    { nodes := g.nodes.filter (fun n => n.id ∈ keep),
      links := g.links.filter (fun l => l.source ∈ keep ∧ l.target ∈ keep) }

/-- The graph-hidden flag (part_001 line 64):
`(settings.minNodesToRender ?? 0) > 0 && filteredData.nodes.length === 0`. -/
def hiddenByMinNodes (g : GraphData) (t : Int) : Bool :=
  decide (0 < t) && decide ((filteredData g t).nodes.length = 0)

/-- Two node ids are adjacent in the logical graph when some link joins
them, in either direction (links are undirected for component analysis). -/
def linkAdj (g : GraphData) (u v : String) : Prop :=
  ∃ l ∈ g.links, (l.source = u ∧ l.target = v) ∨ (l.source = v ∧ l.target = u)

/-- The connected component of an id: everything reachable through
undirected link adjacency. -/
def componentSet (g : GraphData) (u : String) : Set String :=
  {v | Relation.ReflTransGen (linkAdj g) u v}

/-- The step relation actually walked by the traversal. -/
def adjStep (g : GraphData) (u v : String) : Prop := v ∈ neighbors g u

/-- Well-formed input per the data model: no dangling link endpoints. -/
def WfGraph (g : GraphData) : Prop :=
  ∀ l ∈ g.links, l.source ∈ nodeIds g ∧ l.target ∈ nodeIds g

/-- Everything the traversal can ever enqueue: node ids and link endpoints. -/
def Ufin (g : GraphData) : Finset String :=
  (nodeIds g ++ g.links.map AssemblyLink.source ++
    g.links.map AssemblyLink.target).toFinset

/-- Concrete well-formed graph used by witnesses: `A - B` linked, `C`
isolated. -/
def gW : GraphData :=
  { nodes := [⟨"A", 3, 0⟩, ⟨"B", 4, 0⟩, ⟨"C", 5, 0⟩],
    links := [⟨"lAB", "A", "B", 0⟩] }

/-- Settings consumed by the engine (`GraphSettings` in types.ts; only the
numeric physics fields are relevant to the properties below — colour,
label and arrow settings are cosmetic).  `minNodesToRender` is read with
`?? 0` by the component filter. -/
structure GraphSettings where
  nodeWidthScale : ℝ
  nodeLengthScale : ℝ
  linkDistance : ℝ
  chargeStrength : ℝ
  minNodesToRender : Option Int

/-- Backbone target length (part_001 lines 110-112):
`20 + Math.pow(bp, 0.4) * settings.nodeLengthScale * 20`. -/
noncomputable def getVisualLength (settings : GraphSettings) (bp : ℝ) : ℝ :=
  20 + Real.rpow bp 0.4 * settings.nodeLengthScale * 20

/-- One physical endpoint of a contig segment (`SimulationNode` in
types.ts).  `x`/`y` are always assigned on construction in part_001, so
they are total; `fx`/`fy` (d3 pin coordinates) may be absent/null. -/
structure SimulationNode where
  id : String
  parentId : String
  type : String
  x : ℝ
  y : ℝ
  fx : Option ℝ
  fy : Option ℝ
  r : ℝ

/-- A simulation constraint (`SimulationLink` in types.ts); `source` and
`target` are point ids as built in part_001 (d3 later resolves them). -/
structure SimulationLink where
  id : String
  source : String
  target : String
  type : String
  parentId : Option String

/-- The per-node random draws of the rebuild effect (part_001 lines
177-179), abstracting `Math.random()`: `c`/`s` stand for the cosine and
sine of the random angle, `cx`/`cy` for the randomized cluster centre. -/
structure FreshDraw where
  c : ℝ
  s : ℝ
  cx : ℝ
  cy : ℝ

/-- The start point built for a node by the rebuild effect (part_001 lines
181-192): reuse the position of a prior point with the same id when one
exists, otherwise synthesize it at `center - (cos θ · length) / 2`; the
object literal carries no `fx`/`fy`, so the rebuilt point is unpinned. -/
noncomputable def startNodeOf (prior : List SimulationNode)
    (settings : GraphSettings) (draw : String → FreshDraw)
    (node : AssemblyNode) : SimulationNode :=
  { id := node.id ++ "_start",
    parentId := node.id,
    type := "start",
    x := ((prior.find? (fun m => m.id == node.id ++ "_start")).map
            SimulationNode.x).getD
          ((draw node.id).cx -
            (draw node.id).c * getVisualLength settings (node.length : ℝ) / 2),
    y := ((prior.find? (fun m => m.id == node.id ++ "_start")).map
            SimulationNode.y).getD
          ((draw node.id).cy -
            (draw node.id).s * getVisualLength settings (node.length : ℝ) / 2),
    fx := none,
    fy := none,
    r := settings.nodeWidthScale }

/-- The end point built for a node (part_001 lines 194-201), mirroring
`startNodeOf` with `center + (cos θ · length) / 2`. -/
noncomputable def endNodeOf (prior : List SimulationNode)
    (settings : GraphSettings) (draw : String → FreshDraw)
    (node : AssemblyNode) : SimulationNode :=
  { id := node.id ++ "_end",
    parentId := node.id,
    type := "end",
    x := ((prior.find? (fun m => m.id == node.id ++ "_end")).map
            SimulationNode.x).getD
          ((draw node.id).cx +
            (draw node.id).c * getVisualLength settings (node.length : ℝ) / 2),
    y := ((prior.find? (fun m => m.id == node.id ++ "_end")).map
            SimulationNode.y).getD
          ((draw node.id).cy +
            (draw node.id).s * getVisualLength settings (node.length : ℝ) / 2),
    fx := none,
    fy := none,
    r := settings.nodeWidthScale }

/-- The backbone constraint pushed for each node (part_001 lines 205-211). -/
def backboneOf (node : AssemblyNode) : SimulationLink :=
  { id := node.id ++ "_backbone",
    source := node.id ++ "_start",
    target := node.id ++ "_end",
    type := "backbone",
    parentId := some node.id }

/-- The edge constraint pushed for the `i`-th filtered link (part_001
lines 214-221): endpoints are `<source>_end` and `<target>_start`, with no
check that such points exist. -/
def edgeOf (i : Nat) (link : AssemblyLink) : SimulationLink :=
  { id := "edge_" ++ toString i,
    source := link.source ++ "_end",
    target := link.target ++ "_start",
    type := "edge",
    parentId := none }

/-- The rebuild effect's data preparation (part_001 lines 170-224):
two sim points and one backbone per filtered node, then one edge
constraint per filtered link. -/
noncomputable def buildSimGraph (prior : List SimulationNode)
    (fd : GraphData) (settings : GraphSettings) (draw : String → FreshDraw) :
    List SimulationNode × List SimulationLink :=
  (fd.nodes.flatMap (fun node =>
      [startNodeOf prior settings draw node, endNodeOf prior settings draw node]),
   fd.nodes.map backboneOf ++ fd.links.enum.map (fun p => edgeOf p.1 p.2))

/-- A prior sim point that is pinned (`fx`/`fy` set), used to exercise the
rebuild path. -/
def priorP : SimulationNode :=
  { id := "A_start", parentId := "A", type := "start",
    x := 1, y := 2, fx := some 5, fy := some 6, r := 3 }

/-- One-node graph used by rebuild examples. -/
def fdA : GraphData := { nodes := [⟨"A", 0, 0⟩], links := [] }

/-- Concrete settings for examples. -/
def s0 : GraphSettings :=
  { nodeWidthScale := 12, nodeLengthScale := 1, linkDistance := 0,
    chargeStrength := -100, minNodesToRender := none }

/-- Concrete random draws for examples (angle 0, centre at the origin). -/
def draw0 : String → FreshDraw := fun _ => ⟨1, 0, 0, 0⟩

/-- Graph with a dangling link: node `A` only, link `A → X` where `X` is
not in the node set. -/
def gDang : GraphData :=
  { nodes := [⟨"A", 5, 0⟩], links := [⟨"lAX", "A", "X", 0⟩] }

/-- The pan/zoom transform (d3's `{k, x, y}`, spec component
ViewTransform): screen = sim · k + translate. -/
structure ViewTransform where
  k : ℝ
  x : ℝ
  y : ℝ

/-- Point-in-committed-rectangle test of the brush end handler (part_001
lines 549-553): `p.x*k+x >= x0 && p.x*k+x <= x1 && p.y*k+y >= y0 &&
p.y*k+y <= y1`. -/
def InRect (tr : ViewTransform) (x0 y0 x1 y1 : ℝ) (p : SimulationNode) : Prop :=
  p.x * tr.k + tr.x ≥ x0 ∧ p.x * tr.k + tr.x ≤ x1 ∧
    p.y * tr.k + tr.y ≥ y0 ∧ p.y * tr.k + tr.y ≤ y1

noncomputable instance (tr : ViewTransform) (x0 y0 x1 y1 : ℝ)
    (p : SimulationNode) : Decidable (InRect tr x0 y0 x1 y1 p) := by
  unfold InRect
  infer_instance

/-- The per-node test of the brush end handler (part_001 lines 544-558):
look up both sim points of the node; when both exist, the node is hit when
either point lies in the committed rectangle (OR test). -/
noncomputable def brushHit (simNodes : List SimulationNode)
    (tr : ViewTransform) (x0 y0 x1 y1 : ℝ) (node : AssemblyNode) : Bool :=
  match simNodes.find? (fun m => m.id == node.id ++ "_start"),
        simNodes.find? (fun m => m.id == node.id ++ "_end") with
  | some s, some e => decide (InRect tr x0 y0 x1 y1 s ∨ InRect tr x0 y0 x1 y1 e)
  | _, _ => false

/-- The brush end handler's selection (part_001 lines 537-561): the
retained nodes whose hit test passes, in graph order. -/
noncomputable def brushSelect (simNodes : List SimulationNode)
    (nodes : List AssemblyNode) (tr : ViewTransform) (x0 y0 x1 y1 : ℝ) :
    List AssemblyNode :=
  nodes.filter (brushHit simNodes tr x0 y0 x1 y1)

/-- Example sim points: node `N1` at (0,0), node `N2` at (100,100). -/
def simEx : List SimulationNode :=
  [⟨"N1_start", "N1", "start", 0, 0, none, none, 1⟩,
   ⟨"N1_end", "N1", "end", 0, 0, none, none, 1⟩,
   ⟨"N2_start", "N2", "start", 100, 100, none, none, 1⟩,
   ⟨"N2_end", "N2", "end", 100, 100, none, none, 1⟩]

/-- The two owning nodes of `simEx`. -/
def nodesEx : List AssemblyNode := [⟨"N1", 1, 0⟩, ⟨"N2", 1, 0⟩]

/-- Identity view transform (`k = 1`, no translation). -/
def trId : ViewTransform := ⟨1, 0, 0⟩

/-- The mutation applied to one point by the selection-drag handler
(part_001 lines 594-597): translate the position, and the pinned
coordinates when present. -/
def applyDelta (dx dy : ℝ) (p : SimulationNode) : SimulationNode :=
  { p with
    x := p.x + dx,
    y := p.y + dy,
    fx := p.fx.map (fun v => v + dx),
    fy := p.fy.map (fun v => v + dy) }

/-- In-place mutation of the first array element with a given id, as
`Array.prototype.find` + field assignment does. -/
def updateFirst : List SimulationNode → String → (SimulationNode → SimulationNode) →
    List SimulationNode
  | [], _, _ => []
  | p :: rest, pid, f =>
    if p.id = pid then f p :: rest else p :: updateFirst rest pid f

/-- One iteration of the selection-drag `selectedNodes.forEach` body
(part_001 lines 590-598): look up the node's two sim points and, when both
exist, translate them (and their pinned coordinates) by the
simulation-space delta. -/
def dragStep (dx dy : ℝ) (sim : List SimulationNode) (node : AssemblyNode) :
    List SimulationNode :=
  match sim.find? (fun m => m.id == node.id ++ "_start"),
        sim.find? (fun m => m.id == node.id ++ "_end") with
  | some _, some _ =>
    updateFirst (updateFirst sim (node.id ++ "_start") (applyDelta dx dy))
      (node.id ++ "_end") (applyDelta dx dy)
  | _, _ => sim

/-- The selection-drag handler (part_001 lines 586-598): the screen delta
is divided by the zoom scale once, then every selected node's points are
translated. -/
noncomputable def groupDrag (selected : List AssemblyNode)
    (sim : List SimulationNode) (edx edy k : ℝ) : List SimulationNode :=
  selected.foldl (dragStep (edx / k) (edy / k)) sim

/-- A point of `sim` is touched by the drag for node `n` when its id is
one of `n`'s two point ids and both of `n`'s points are present. -/
def TouchedBy (n : AssemblyNode) (sim : List SimulationNode)
    (q : SimulationNode) : Prop :=
  (q.id = n.id ++ "_start" ∨ q.id = n.id ++ "_end") ∧
    (∃ a ∈ sim, a.id = n.id ++ "_start") ∧ (∃ b ∈ sim, b.id = n.id ++ "_end")

instance (n : AssemblyNode) (sim : List SimulationNode) (q : SimulationNode) :
    Decidable (TouchedBy n sim q) := by
  unfold TouchedBy
  infer_instance

/-- Separator class of the search input: the characters matched by the
`/[;,\s]+/` split in `handleSearchIds` (App.tsx line 103). -/
def isSepChar (c : Char) : Bool := c == ';' || c == ',' || c.isWhitespace

/-- Maximal runs of non-separator characters.  This models the App.tsx
pipeline `input.split(/[;,\s]+/).map(trim).filter(Boolean)` exactly: the
regex split cuts at separator runs, the surviving tokens contain no
whitespace (so `trim` is the identity on them), and `filter(Boolean)`
drops the empty leading/trailing pieces. -/
def tokensAux : List Char → List Char → List String
  | [], acc => if acc.isEmpty then [] else [String.mk acc.reverse]
  | c :: rest, acc =>
    if isSepChar c then
      if acc.isEmpty then tokensAux rest []
      else String.mk acc.reverse :: tokensAux rest []
    else tokensAux rest (c :: acc)

/-- The tokenized search input. -/
def searchTokens (input : String) : List String := tokensAux input.data []

/-- The id-search handler `handleSearchIds` (App.tsx lines 101-113):
tokenize the input, de-duplicate (`Array.from(new Set(parts))`), and
select the matching nodes of the FULL data set (`data.nodes.filter`). -/
def handleSearchIds (data : GraphData) (input : String) : List AssemblyNode :=
  let unique := (searchTokens input).dedup
  data.nodes.filter (fun n => unique.contains n.id)

/-- Modelled from the spec: the ForceLayoutEngine of §4.3.  The actual
force integration lives in the d3-force dependency, which is not part of
this repository's sources (src/ only holds its callers:
`simulation.stop()`, `simulation.alpha(0.1).restart()` and the rebuild
effect).  The engine state machine has the two spec states through
`running`; `alpha` is the reheating energy; `points` the working set. -/
structure ForceLayoutEngine where
  running : Bool
  alpha : ℝ
  chargeStrength : ℝ
  points : List SimulationNode

/-- Squared distance between two points. -/
def d2 (p q : SimulationNode) : ℝ :=
  (p.x - q.x) * (p.x - q.x) + (p.y - q.y) * (p.y - q.y)

/-- Modelled from the spec: the pairwise many-body repulsion of §4.3
(force 2), "pairwise many-body repulsion with a single global strength
coefficient", scaled by the current reheating energy as d3 does;
coincident pairs are pushed apart along a fixed axis, standing for the
d3 random jiggle the spec leaves unspecified. -/
noncomputable def repulse (alpha strength : ℝ) (pts : List SimulationNode)
    (p : SimulationNode) : ℝ × ℝ :=
  pts.foldl
    (fun acc q =>
      if q.id = p.id then acc
      else if d2 p q = 0 then (acc.1 + strength * alpha, acc.2)
      else (acc.1 + strength * alpha * (p.x - q.x) / d2 p q,
            acc.2 + strength * alpha * (p.y - q.y) / d2 p q))
    (0, 0)

/-- Modelled from the spec: one integration step for a single point —
a pinned point holds its fixed position ("force integration skips
velocity updates for that point"), a free point moves along the summed
repulsion displacement. -/
noncomputable def stepPoint (e : ForceLayoutEngine) (p : SimulationNode) :
    SimulationNode :=
  match p.fx, p.fy with
  | some fx0, some fy0 =>
    { p with
      x := fx0,
      y := fy0 }
  | _, _ =>
    { p with
      x := p.x + (repulse e.alpha e.chargeStrength e.points p).1,
      y := p.y + (repulse e.alpha e.chargeStrength e.points p).2 }

/-- Modelled from the spec: one settled integration step of the engine. -/
noncomputable def stepOnce (e : ForceLayoutEngine) : ForceLayoutEngine :=
  { e with points := e.points.map (stepPoint e) }

/-- Modelled from the spec: one scheduled frame — a frozen engine
performs no integration step. -/
noncomputable def frame (e : ForceLayoutEngine) : ForceLayoutEngine :=
  if e.running then stepOnce e else e

/-- `simulation.stop()` (part_001 lines 281-282). -/
def freeze (e : ForceLayoutEngine) : ForceLayoutEngine :=
  { e with running := false }

/-- `simulation.alpha(0.1).restart()` (part_001 line 284): resume with a
bounded reheating energy. -/
noncomputable def unfreeze (e : ForceLayoutEngine) : ForceLayoutEngine :=
  { e with
    running := true,
    alpha := 1 / 10 }

/-- The rebuild effect (part_001 lines 227-250): `d3.forceSimulation`
starts the new simulation running with full energy, and the effect stops
it immediately when brush mode is active (`if (isBrushMode)
simulation.stop()`). -/
def rebuildEngine (isBrushMode : Bool) (e : ForceLayoutEngine)
    (pts : List SimulationNode) : ForceLayoutEngine :=
  let started : ForceLayoutEngine :=
    { running := true, alpha := 1, chargeStrength := e.chargeStrength,
      points := pts }
  if isBrushMode then freeze started else started

/-- Per-pair x-displacement factor seen by `repulse`. -/
noncomputable def xterm (p q : SimulationNode) : ℝ :=
  if q.id = p.id then 0
  else if d2 p q = 0 then 1
  else (p.x - q.x) / d2 p q

/-- Per-pair y-displacement factor seen by `repulse`. -/
noncomputable def yterm (p q : SimulationNode) : ℝ :=
  if q.id = p.id then 0
  else if d2 p q = 0 then 0
  else (p.y - q.y) / d2 p q

/-- Concrete frozen engine with two distinct unpinned points and
repulsive charge. -/
def engEx : ForceLayoutEngine :=
  { running := false, alpha := 1, chargeStrength := -30,
    points := [⟨"a", "a", "start", 0, 0, none, none, 1⟩,
               ⟨"b", "b", "start", 1, 0, none, none, 1⟩] }

lemma neighbors_subset_Ufin (g : GraphData) (u : String) :
    ∀ v ∈ neighbors g u, v ∈ Ufin g := by
  intro v hv
  unfold neighbors at hv
  split at hv
  · simp only [List.mem_append, List.mem_map, List.mem_filter] at hv
    rcases hv with ⟨l, ⟨hl, _⟩, rfl⟩ | ⟨l, ⟨hl, _⟩, rfl⟩
    · exact List.mem_toFinset.mpr
        (List.mem_append_right _ (List.mem_map.mpr ⟨l, hl, rfl⟩))
    · exact List.mem_toFinset.mpr
        (List.mem_append_left _
          (List.mem_append_right _ (List.mem_map.mpr ⟨l, hl, rfl⟩)))
  · simp at hv

lemma Ufin_card_le (g : GraphData) :
    (Ufin g).card ≤ g.nodes.length + 2 * g.links.length := by
  calc (Ufin g).card
      ≤ (nodeIds g ++ g.links.map AssemblyLink.source ++
          g.links.map AssemblyLink.target).length := List.toFinset_card_le _
    _ = g.nodes.length + 2 * g.links.length := by
        simp [nodeIds, List.length_append]
        omega

lemma visitFold_fst (L : List String) (V : Finset String) (Q : List String) :
    (L.foldl visitStep (V, Q)).1 = V ∪ L.toFinset := by
  induction L generalizing V Q with
  | nil => simp
  | cons a L ih =>
    simp only [List.foldl_cons, visitStep]
    by_cases h : a ∈ V
    · rw [if_pos h, ih]
      ext x
      simp only [Finset.mem_union, List.mem_toFinset, List.toFinset_cons,
        Finset.mem_insert, List.mem_cons]
      constructor
      · tauto
      · rintro (hx | rfl | hx) <;> tauto
    · rw [if_neg h]
      show (L.foldl visitStep (insert a V, Q ++ [a])).1 = _
      rw [ih]
      ext x
      simp only [Finset.mem_union, Finset.mem_insert, List.toFinset_cons,
        List.mem_toFinset]
      tauto

lemma visitFold_snd (L : List String) (V : Finset String) (Q : List String) :
    ∃ D, (L.foldl visitStep (V, Q)).2 = Q ++ D ∧ D.Nodup ∧
      (∀ x ∈ D, x ∈ L ∧ x ∉ V) ∧ D.toFinset = L.toFinset \ V := by
  induction L generalizing V Q with
  | nil => exact ⟨[], by simp⟩
  | cons a L ih =>
    simp only [List.foldl_cons, visitStep]
    by_cases h : a ∈ V
    · rw [if_pos h]
      obtain ⟨D, hD1, hD2, hD3, hD4⟩ := ih V Q
      refine ⟨D, hD1, hD2, fun x hx => ⟨(hD3 x hx).1.tail _, (hD3 x hx).2⟩, ?_⟩
      rw [hD4]
      ext x
      simp only [Finset.mem_sdiff, List.toFinset_cons, Finset.mem_insert,
        List.mem_toFinset]
      constructor
      · tauto
      · rintro ⟨rfl | hx, hxv⟩
        · exact absurd h hxv
        · exact ⟨hx, hxv⟩
    · rw [if_neg h]
      obtain ⟨D, hD1, hD2, hD3, hD4⟩ := ih (insert a V) (Q ++ [a])
      refine ⟨a :: D, by simpa [List.append_assoc] using hD1, ?_, ?_, ?_⟩
      · refine List.nodup_cons.mpr ⟨fun hc => ?_, hD2⟩
        exact (hD3 a hc).2 (Finset.mem_insert_self a V)
      · intro x hx
        rcases List.mem_cons.mp hx with rfl | hx
        · exact ⟨List.mem_cons_self _ _, h⟩
        · refine ⟨(hD3 x hx).1.tail _, fun hxv => (hD3 x hx).2 ?_⟩
          exact Finset.mem_insert_of_mem hxv
      · rw [List.toFinset_cons, hD4]
        ext x
        constructor
        · intro hx
          rcases Finset.mem_insert.mp hx with rfl | hx
          · exact Finset.mem_sdiff.mpr ⟨by simp, h⟩
          · rcases Finset.mem_sdiff.mp hx with ⟨hxL, hxv⟩
            refine Finset.mem_sdiff.mpr ⟨by simp [List.mem_toFinset.mp hxL], ?_⟩
            exact fun hv => hxv (Finset.mem_insert_of_mem hv)
        · intro hx
          rcases Finset.mem_sdiff.mp hx with ⟨hxL, hxv⟩
          rcases List.mem_cons.mp (List.mem_toFinset.mp hxL) with rfl | hxL2
          · exact Finset.mem_insert_self _ _
          · by_cases hxa : x = a
            · exact hxa ▸ Finset.mem_insert_self _ _
            · refine Finset.mem_insert_of_mem (Finset.mem_sdiff.mpr ?_)
              exact ⟨List.mem_toFinset.mpr hxL2, by simp [Finset.mem_insert, hxa, hxv]⟩

lemma traverse_nil (g : GraphData) (fuel : Nat) (visited : Finset String)
    (comp : List String) :
    traverse g fuel visited [] comp = (visited, comp) := by
  cases fuel with
  | zero => rfl
  | succ fuel => rfl

lemma traverse_concat (g : GraphData) (fuel : Nat) (visited : Finset String)
    (R : List String) (u : String) (comp : List String) :
    traverse g (fuel + 1) visited (R ++ [u]) comp =
      traverse g fuel ((neighbors g u).foldl visitStep (visited, R)).1
        ((neighbors g u).foldl visitStep (visited, R)).2 (comp ++ [u]) := by
  rw [traverse.eq_def]
  simp only [List.getLast?_concat, List.dropLast_concat]

/-- Main loop invariant of the traversal in `filteredData`: starting from a
singleton queue whose component is disjoint from the previously visited set,
the traversal accumulates exactly the ids it can reach, without duplicates,
and the visited set grows by exactly the emitted component. -/
lemma traverse_run (g : GraphData) (n : String) (V0 : Finset String) :
    ∀ (fuel : Nat) (visited : Finset String) (queue comp : List String),
    visited = V0 ∪ comp.toFinset ∪ queue.toFinset →
    comp.Nodup → queue.Nodup → (∀ x ∈ comp, x ∉ queue) →
    (∀ x ∈ comp, x ∉ V0) → (∀ x ∈ queue, x ∉ V0) →
    (∀ u ∈ comp, ∀ v ∈ neighbors g u, v ∈ visited) →
    (∀ x ∈ comp, Relation.ReflTransGen (adjStep g) n x) →
    (∀ x ∈ queue, Relation.ReflTransGen (adjStep g) n x) →
    queue.length + (Ufin g \ visited).card ≤ fuel →
    (traverse g fuel visited queue comp).1
        = V0 ∪ (traverse g fuel visited queue comp).2.toFinset ∧
    (traverse g fuel visited queue comp).2.Nodup ∧
    (∀ x ∈ (traverse g fuel visited queue comp).2,
        Relation.ReflTransGen (adjStep g) n x) ∧
    (∀ u ∈ (traverse g fuel visited queue comp).2,
        ∀ v ∈ neighbors g u, v ∈ (traverse g fuel visited queue comp).1) ∧
    (∀ x ∈ comp, x ∈ (traverse g fuel visited queue comp).2) ∧
    (∀ x ∈ queue, x ∈ (traverse g fuel visited queue comp).2) ∧
    (∀ x ∈ (traverse g fuel visited queue comp).2, x ∉ V0) := by
  intro fuel
  induction fuel with
  | zero =>
    intro visited queue comp h1 hnC hnQ hdj hCV hQV h3 h4C h4Q hfuel
    have hq : queue = [] := by
      cases queue with
      | nil => rfl
      | cons a l => simp at hfuel
    subst hq
    rw [traverse_nil]
    refine ⟨?_, hnC, h4C, h3, fun x hx => hx, by simp, hCV⟩
    simpa using h1
  | succ fuel ih =>
    intro visited queue comp h1 hnC hnQ hdj hCV hQV h3 h4C h4Q hfuel
    rcases List.eq_nil_or_concat queue with rfl | ⟨R, u, hq⟩
    · rw [traverse_nil]
      refine ⟨?_, hnC, h4C, h3, fun x hx => hx, by simp, hCV⟩
      simpa using h1
    · subst hq
      subst h1
      simp only [List.concat_eq_append] at hnQ hdj hQV h4Q h3 hfuel ⊢
      rw [traverse_concat]
      have hu_mem : u ∈ R ++ [u] := by simp
      have hVfst := visitFold_fst (neighbors g u) (V0 ∪ comp.toFinset ∪ (R ++ [u]).toFinset) R
      obtain ⟨D, hD1, hD2, hD3, hD4⟩ :=
        visitFold_snd (neighbors g u) (V0 ∪ comp.toFinset ∪ (R ++ [u]).toFinset) R
      rw [hVfst, hD1]
      -- memberships of the old accumulators in the old visited set
      have hvis : ∀ x, x ∈ comp ∨ x ∈ R ++ [u] ∨ x ∈ V0 →
          x ∈ V0 ∪ comp.toFinset ∪ (R ++ [u]).toFinset := by
        intro x hx
        simp only [Finset.mem_union, List.mem_toFinset]
        tauto
      have hDfresh : ∀ x ∈ D, x ∉ comp ∧ x ∉ R ++ [u] ∧ x ∉ V0 := by
        intro x hx
        have h2 := (hD3 x hx).2
        simp only [Finset.mem_union, List.mem_toFinset] at h2
        tauto
      -- re-established invariants for the recursive call
      have h1' : (V0 ∪ comp.toFinset ∪ (R ++ [u]).toFinset) ∪ (neighbors g u).toFinset
          = V0 ∪ (comp ++ [u]).toFinset ∪ (R ++ D).toFinset := by
        ext x
        have hx4 := Finset.ext_iff.mp hD4 x
        simp only [Finset.mem_union, Finset.mem_sdiff, List.toFinset_append,
          List.toFinset_cons, List.toFinset_nil, Finset.mem_insert,
          Finset.not_mem_empty, List.mem_toFinset] at hx4 ⊢
        tauto
      have hnC' : (comp ++ [u]).Nodup := by
        rw [List.nodup_append]
        refine ⟨hnC, by simp, fun x hx hxu => ?_⟩
        rcases List.mem_singleton.mp hxu with rfl
        exact hdj x hx hu_mem
      have hRnodup : R.Nodup := hnQ.of_append_left
      have huR : u ∉ R := by
        intro hc
        rcases List.nodup_append.mp hnQ with ⟨_, _, hd⟩
        exact hd hc (List.mem_singleton_self u)
      have hnQ' : (R ++ D).Nodup := by
        rw [List.nodup_append]
        refine ⟨hRnodup, hD2, fun x hx hxD => ?_⟩
        exact (hD3 x hxD).2 (hvis x (Or.inr (Or.inl (List.mem_append_left _ hx))))
      have hdj' : ∀ x ∈ comp ++ [u], x ∉ R ++ D := by
        intro x hx hc
        rcases List.mem_append.mp hc with hcR | hcD
        · rcases List.mem_append.mp hx with hxc | hxu
          · exact hdj x hxc (List.mem_append_left _ hcR)
          · rcases List.mem_singleton.mp hxu with rfl
            exact huR hcR
        · rcases List.mem_append.mp hx with hxc | hxu
          · exact (hDfresh x hcD).1 hxc
          · rcases List.mem_singleton.mp hxu with rfl
            exact (hDfresh x hcD).2.1 hu_mem
      have hCV' : ∀ x ∈ comp ++ [u], x ∉ V0 := by
        intro x hx
        rcases List.mem_append.mp hx with hxc | hxu
        · exact hCV x hxc
        · rcases List.mem_singleton.mp hxu with rfl
          exact hQV x hu_mem
      have hQV' : ∀ x ∈ R ++ D, x ∉ V0 := by
        intro x hx
        rcases List.mem_append.mp hx with hxR | hxD
        · exact hQV x (List.mem_append_left _ hxR)
        · exact (hDfresh x hxD).2.2
      have h3' : ∀ w ∈ comp ++ [u], ∀ v ∈ neighbors g w,
          v ∈ (V0 ∪ comp.toFinset ∪ (R ++ [u]).toFinset) ∪ (neighbors g u).toFinset := by
        intro w hw v hv
        rcases List.mem_append.mp hw with hwc | hwu
        · exact Finset.mem_union_left _ (h3 w hwc v hv)
        · rcases List.mem_singleton.mp hwu with rfl
          exact Finset.mem_union_right _ (List.mem_toFinset.mpr hv)
      have h4C' : ∀ x ∈ comp ++ [u], Relation.ReflTransGen (adjStep g) n x := by
        intro x hx
        rcases List.mem_append.mp hx with hxc | hxu
        · exact h4C x hxc
        · rcases List.mem_singleton.mp hxu with rfl
          exact h4Q x hu_mem
      have h4Q' : ∀ x ∈ R ++ D, Relation.ReflTransGen (adjStep g) n x := by
        intro x hx
        rcases List.mem_append.mp hx with hxR | hxD
        · exact h4Q x (List.mem_append_left _ hxR)
        · exact Relation.ReflTransGen.tail (h4Q u hu_mem) (hD3 x hxD).1
      have hfuel' : (R ++ D).length +
          (Ufin g \ ((V0 ∪ comp.toFinset ∪ (R ++ [u]).toFinset) ∪ (neighbors g u).toFinset)).card
          ≤ fuel := by
        have hDsub : D.toFinset ⊆ Ufin g \ (V0 ∪ comp.toFinset ∪ (R ++ [u]).toFinset) := by
          intro x hx
          have hxD := List.mem_toFinset.mp hx
          refine Finset.mem_sdiff.mpr ⟨?_, (hD3 x hxD).2⟩
          exact neighbors_subset_Ufin g u x (hD3 x hxD).1
        have hsd : Ufin g \ ((V0 ∪ comp.toFinset ∪ (R ++ [u]).toFinset) ∪ (neighbors g u).toFinset)
            = (Ufin g \ (V0 ∪ comp.toFinset ∪ (R ++ [u]).toFinset)) \ D.toFinset := by
          ext x
          have hx4 := Finset.ext_iff.mp hD4 x
          simp only [Finset.mem_sdiff, Finset.mem_union, List.mem_toFinset] at hx4 ⊢
          tauto
        have hcard := Finset.card_sdiff hDsub
        have hDlen : D.toFinset.card = D.length := List.toFinset_card_of_nodup hD2
        have hle := Finset.card_le_card hDsub
        have hql : (R ++ [u]).length = R.length + 1 := by simp
        have hq2 : (R ++ D).length = R.length + D.length := by simp
        rw [hsd, hcard, hDlen] at *
        rw [hql] at hfuel
        omega
      obtain ⟨c1, c2, c3, c4, c5, c6, c7⟩ := ih _ _ _ h1' hnC' hnQ' hdj' hCV' hQV' h3' h4C' h4Q' hfuel'
      refine ⟨c1, c2, c3, c4, ?_, ?_, c7⟩
      · intro x hx
        exact c5 x (List.mem_append_left _ hx)
      · intro x hx
        rcases List.mem_append.mp hx with hxR | hxu
        · exact c6 x (List.mem_append_left _ hxR)
        · rcases List.mem_singleton.mp hxu with rfl
          exact c5 x (List.mem_append_right _ (List.mem_singleton_self x))

lemma adjStep_symm {g : GraphData} (hwf : WfGraph g) {u v : String}
    (h : adjStep g u v) : adjStep g v u := by
  unfold adjStep neighbors at h ⊢
  split at h
  · simp only [List.mem_append, List.mem_map, List.mem_filter] at h
    rcases h with ⟨l, ⟨hl, hs⟩, rfl⟩ | ⟨l, ⟨hl, ht⟩, rfl⟩
    · rw [if_pos (hwf l hl).2]
      refine List.mem_append_right _ (List.mem_map.mpr ⟨l, ?_, ?_⟩)
      · exact List.mem_filter.mpr ⟨hl, by simp⟩
      · exact eq_of_beq hs
    · rw [if_pos (hwf l hl).1]
      refine List.mem_append_left _ (List.mem_map.mpr ⟨l, ?_, ?_⟩)
      · exact List.mem_filter.mpr ⟨hl, by simp⟩
      · exact eq_of_beq ht
  · simp at h

lemma reach_symm {g : GraphData} (hwf : WfGraph g) {u v : String}
    (h : Relation.ReflTransGen (adjStep g) u v) :
    Relation.ReflTransGen (adjStep g) v u := by
  induction h with
  | refl => exact Relation.ReflTransGen.refl
  | tail hab hbc ih => exact Relation.ReflTransGen.head (adjStep_symm hwf hbc) ih

lemma adjStep_mem_nodeIds {g : GraphData} (hwf : WfGraph g) {u v : String}
    (h : adjStep g u v) : v ∈ nodeIds g := by
  unfold adjStep neighbors at h
  split at h
  · simp only [List.mem_append, List.mem_map, List.mem_filter] at h
    rcases h with ⟨l, ⟨hl, _⟩, rfl⟩ | ⟨l, ⟨hl, _⟩, rfl⟩
    · exact (hwf l hl).2
    · exact (hwf l hl).1
  · simp at h

lemma adjStep_iff_linkAdj {g : GraphData} (hwf : WfGraph g) (u v : String) :
    adjStep g u v ↔ linkAdj g u v := by
  constructor
  · intro h
    unfold adjStep neighbors at h
    split at h
    · simp only [List.mem_append, List.mem_map, List.mem_filter] at h
      rcases h with ⟨l, ⟨hl, hs⟩, rfl⟩ | ⟨l, ⟨hl, ht⟩, rfl⟩
      · exact ⟨l, hl, Or.inl ⟨eq_of_beq hs, rfl⟩⟩
      · exact ⟨l, hl, Or.inr ⟨rfl, eq_of_beq ht⟩⟩
    · simp at h
  · rintro ⟨l, hl, ⟨hs, ht⟩ | ⟨hs, ht⟩⟩
    · unfold adjStep neighbors
      rw [if_pos (hs ▸ (hwf l hl).1)]
      refine List.mem_append_left _ (List.mem_map.mpr ⟨l, ?_, ht⟩)
      exact List.mem_filter.mpr ⟨hl, by simp [hs]⟩
    · unfold adjStep neighbors
      rw [if_pos (ht ▸ (hwf l hl).2)]
      refine List.mem_append_right _ (List.mem_map.mpr ⟨l, ?_, hs⟩)
      exact List.mem_filter.mpr ⟨hl, by simp [ht]⟩

lemma componentSet_eq_reach {g : GraphData} (hwf : WfGraph g) (u : String) :
    componentSet g u = {v | Relation.ReflTransGen (adjStep g) u v} := by
  ext v
  unfold componentSet
  constructor
  · exact Relation.ReflTransGen.mono (fun a b => (adjStep_iff_linkAdj hwf a b).mpr)
  · exact Relation.ReflTransGen.mono (fun a b => (adjStep_iff_linkAdj hwf a b).mp)

lemma closed_under_reach {g : GraphData} {V0 : Finset String}
    (hcl : ∀ y ∈ V0, ∀ z, adjStep g y z → z ∈ V0) :
    ∀ y ∈ V0, ∀ z, Relation.ReflTransGen (adjStep g) y z → z ∈ V0 := by
  intro y hy z hz
  induction hz with
  | refl => exact hy
  | tail hab hbc ih => exact hcl _ ih _ hbc

/-- Effect of one traversal launched by the outer loop of `filteredData` on
an unvisited start node, assuming the already-visited set is closed under
adjacency: the emitted component list is exactly the start node's connected
component and the visited set grows by it. -/
lemma traverse_start (g : GraphData) (n : String) (V0 : Finset String)
    (hwf : WfGraph g)
    (hcl : ∀ y ∈ V0, ∀ z, adjStep g y z → z ∈ V0) (hn : n ∉ V0) :
    (traverse g (fuelBound g) (insert n V0) [n] []).1
        = V0 ∪ (traverse g (fuelBound g) (insert n V0) [n] []).2.toFinset ∧
    (traverse g (fuelBound g) (insert n V0) [n] []).2.Nodup ∧
    (∀ y, y ∈ (traverse g (fuelBound g) (insert n V0) [n] []).2 ↔
        Relation.ReflTransGen (adjStep g) n y) ∧
    (∀ x ∈ (traverse g (fuelBound g) (insert n V0) [n] []).2, x ∉ V0) := by
  have hV : ∀ y, Relation.ReflTransGen (adjStep g) n y → y ∉ V0 := by
    intro y hy hyV
    exact hn (closed_under_reach hcl y hyV n (reach_symm hwf hy))
  have h1 : insert n V0 = V0 ∪ ([] : List String).toFinset ∪ [n].toFinset := by
    ext x
    simp only [Finset.mem_insert, Finset.mem_union, List.toFinset_nil,
      Finset.not_mem_empty, List.toFinset_cons, List.mem_toFinset,
      List.not_mem_nil, Finset.mem_singleton]
    tauto
  have hfuel : [n].length + (Ufin g \ insert n V0).card ≤ fuelBound g := by
    have h2 : (Ufin g \ insert n V0).card ≤ (Ufin g).card :=
      Finset.card_le_card (Finset.sdiff_subset)
    have h3 := Ufin_card_le g
    simp only [List.length_singleton]
    unfold fuelBound
    omega
  obtain ⟨c1, c2, c3, c4, c5, c6, c7⟩ :=
    traverse_run g n V0 (fuelBound g) (insert n V0) [n] [] h1
      (by simp) (by simp) (by simp) (by simp)
      (by intro x hx; rcases List.mem_singleton.mp hx with rfl; exact hn)
      (by simp) (by simp)
      (by intro x hx; rcases List.mem_singleton.mp hx with rfl;
          exact Relation.ReflTransGen.refl)
      hfuel
  refine ⟨c1, c2, fun y => ⟨c3 y, fun hy => ?_⟩, c7⟩
  induction hy with
  | refl => exact c6 n (List.mem_singleton_self n)
  | tail hab hbc ih =>
    rename_i b c
    have hcmem : c ∈ (traverse g (fuelBound g) (insert n V0) [n] []).1 :=
      c4 b ih c hbc
    rw [c1] at hcmem
    rcases Finset.mem_union.mp hcmem with hcV | hcF
    · exact absurd hcV (hV c (Relation.ReflTransGen.tail hab hbc))
    · exact List.mem_toFinset.mp hcF

/-- Outer-loop invariant of `filteredData`: the visited set is always a
union of whole components, and the keep set holds exactly the visited ids
whose component size reaches the threshold. -/
lemma filterFold_run (g : GraphData) (t : Int) (hwf : WfGraph g) :
    ∀ (l : List AssemblyNode) (acc : Finset String × Finset String),
    (∀ y ∈ acc.1, ∀ z, adjStep g y z → z ∈ acc.1) →
    (∀ y, y ∈ acc.2 ↔ y ∈ acc.1 ∧ t ≤ ((componentSet g y).ncard : Int)) →
    (∀ y ∈ (l.foldl (filterStep g t) acc).1, ∀ z, adjStep g y z →
        z ∈ (l.foldl (filterStep g t) acc).1) ∧
    (∀ y, y ∈ (l.foldl (filterStep g t) acc).2 ↔
        y ∈ (l.foldl (filterStep g t) acc).1 ∧
          t ≤ ((componentSet g y).ncard : Int)) ∧
    acc.1 ⊆ (l.foldl (filterStep g t) acc).1 ∧
    (∀ m ∈ l, m.id ∈ (l.foldl (filterStep g t) acc).1) := by
  intro l
  induction l with
  | nil =>
    intro acc hcl hkeep
    exact ⟨hcl, hkeep, Finset.Subset.refl _, by simp⟩
  | cons n l ih =>
    intro acc hcl hkeep
    simp only [List.foldl_cons]
    by_cases hmem : n.id ∈ acc.1
    · have hstep : filterStep g t acc n = acc := by
        simp [filterStep, hmem]
      rw [hstep]
      obtain ⟨k1, k2, k3, k4⟩ := ih acc hcl hkeep
      refine ⟨k1, k2, k3, ?_⟩
      intro m hm
      rcases List.mem_cons.mp hm with rfl | hm
      · exact k3 hmem
      · exact k4 m hm
    · obtain ⟨c1, c2, c3, c4⟩ := traverse_start g n.id acc.1 hwf hcl hmem
      have hclass : componentSet g n.id =
          ↑(traverse g (fuelBound g) (insert n.id acc.1) [n.id] []).2.toFinset := by
        rw [componentSet_eq_reach hwf]
        ext y
        simp only [Set.mem_setOf_eq, Finset.mem_coe, List.mem_toFinset]
        exact (c3 y).symm
      have hsize : ((componentSet g n.id).ncard : Int) =
          ((traverse g (fuelBound g) (insert n.id acc.1) [n.id] []).2.length : Int) := by
        rw [hclass, Set.ncard_coe_Finset, List.toFinset_card_of_nodup c2]
      have hclass_same : ∀ y ∈ (traverse g (fuelBound g) (insert n.id acc.1) [n.id] []).2,
          componentSet g y = componentSet g n.id := by
        intro y hy
        have hny : Relation.ReflTransGen (adjStep g) n.id y := (c3 y).mp hy
        rw [componentSet_eq_reach hwf, componentSet_eq_reach hwf]
        ext z
        simp only [Set.mem_setOf_eq]
        constructor
        · intro hz
          exact Relation.ReflTransGen.trans hny hz
        · intro hz
          exact Relation.ReflTransGen.trans (reach_symm hwf hny) hz
      have hJ1 : ∀ y ∈ (traverse g (fuelBound g) (insert n.id acc.1) [n.id] []).1,
          ∀ z, adjStep g y z →
            z ∈ (traverse g (fuelBound g) (insert n.id acc.1) [n.id] []).1 := by
        intro y hy z hz
        rw [c1] at hy ⊢
        rcases Finset.mem_union.mp hy with hyV | hyF
        · exact Finset.mem_union_left _ (hcl y hyV z hz)
        · have hyr : Relation.ReflTransGen (adjStep g) n.id y :=
            (c3 y).mp (List.mem_toFinset.mp hyF)
          exact Finset.mem_union_right _
            (List.mem_toFinset.mpr ((c3 z).mpr (Relation.ReflTransGen.tail hyr hz)))
      have hnmem : n.id ∈ (traverse g (fuelBound g) (insert n.id acc.1) [n.id] []).1 := by
        rw [c1]
        exact Finset.mem_union_right _
          (List.mem_toFinset.mpr ((c3 n.id).mpr Relation.ReflTransGen.refl))
      by_cases hkept : t ≤ ((traverse g (fuelBound g) (insert n.id acc.1) [n.id] []).2.length : Int)
      · have hstep : filterStep g t acc n =
            ((traverse g (fuelBound g) (insert n.id acc.1) [n.id] []).1,
             acc.2 ∪ (traverse g (fuelBound g) (insert n.id acc.1) [n.id] []).2.toFinset) := by
          rw [filterStep, if_neg hmem, if_pos hkept]
        rw [hstep]
        have hJ2 : ∀ y, y ∈ acc.2 ∪ (traverse g (fuelBound g) (insert n.id acc.1) [n.id] []).2.toFinset ↔
            y ∈ (traverse g (fuelBound g) (insert n.id acc.1) [n.id] []).1 ∧
              t ≤ ((componentSet g y).ncard : Int) := by
          intro y
          constructor
          · intro hy
            rcases Finset.mem_union.mp hy with hya | hyF
            · obtain ⟨hy1, hy2⟩ := (hkeep y).mp hya
              exact ⟨by rw [c1]; exact Finset.mem_union_left _ hy1, hy2⟩
            · refine ⟨by rw [c1]; exact Finset.mem_union_right _ hyF, ?_⟩
              rw [hclass_same y (List.mem_toFinset.mp hyF), hsize]
              exact hkept
          · rintro ⟨hy1, hy2⟩
            rw [c1] at hy1
            rcases Finset.mem_union.mp hy1 with hyV | hyF
            · exact Finset.mem_union_left _ ((hkeep y).mpr ⟨hyV, hy2⟩)
            · exact Finset.mem_union_right _ hyF
        obtain ⟨k1, k2, k3, k4⟩ :=
          ih ((traverse g (fuelBound g) (insert n.id acc.1) [n.id] []).1,
              acc.2 ∪ (traverse g (fuelBound g) (insert n.id acc.1) [n.id] []).2.toFinset)
            hJ1 hJ2
        refine ⟨k1, k2, ?_, ?_⟩
        · refine Finset.Subset.trans ?_ k3
          rw [c1]
          exact fun x hx => Finset.mem_union_left _ hx
        · intro m hm
          rcases List.mem_cons.mp hm with rfl | hm
          · exact k3 hnmem
          · exact k4 m hm
      · have hstep : filterStep g t acc n =
            ((traverse g (fuelBound g) (insert n.id acc.1) [n.id] []).1, acc.2) := by
          rw [filterStep, if_neg hmem, if_neg hkept]
        rw [hstep]
        have hJ2 : ∀ y, y ∈ acc.2 ↔
            y ∈ (traverse g (fuelBound g) (insert n.id acc.1) [n.id] []).1 ∧
              t ≤ ((componentSet g y).ncard : Int) := by
          intro y
          constructor
          · intro hy
            obtain ⟨hy1, hy2⟩ := (hkeep y).mp hy
            exact ⟨by rw [c1]; exact Finset.mem_union_left _ hy1, hy2⟩
          · rintro ⟨hy1, hy2⟩
            rw [c1] at hy1
            rcases Finset.mem_union.mp hy1 with hyV | hyF
            · exact (hkeep y).mpr ⟨hyV, hy2⟩
            · exfalso
              rw [hclass_same y (List.mem_toFinset.mp hyF), hsize] at hy2
              exact hkept hy2
        obtain ⟨k1, k2, k3, k4⟩ :=
          ih ((traverse g (fuelBound g) (insert n.id acc.1) [n.id] []).1, acc.2)
            hJ1 hJ2
        refine ⟨k1, k2, ?_, ?_⟩
        · refine Finset.Subset.trans ?_ k3
          rw [c1]
          exact fun x hx => Finset.mem_union_left _ hx
        · intro m hm
          rcases List.mem_cons.mp hm with rfl | hm
          · exact k3 hnmem
          · exact k4 m hm

lemma filterFold_spec (g : GraphData) (t : Int) (hwf : WfGraph g) :
    (∀ y, y ∈ (filterFold g t).2 ↔
        y ∈ (filterFold g t).1 ∧ t ≤ ((componentSet g y).ncard : Int)) ∧
    (∀ m ∈ g.nodes, m.id ∈ (filterFold g t).1) := by
  have h := filterFold_run g t hwf g.nodes (∅, ∅) (by simp) (by simp)
  exact ⟨h.2.1, h.2.2.2⟩

lemma componentSet_ncard_le (g : GraphData) (hwf : WfGraph g) {n : String}
    (hn : n ∈ nodeIds g) : (componentSet g n).ncard ≤ g.nodes.length := by
  have hsub : componentSet g n ⊆ ↑(nodeIds g).toFinset := by
    rw [componentSet_eq_reach hwf]
    intro y hy
    simp only [Set.mem_setOf_eq] at hy
    simp only [Finset.coe_sort_coe, Finset.mem_coe, List.mem_toFinset]
    induction hy with
    | refl => exact hn
    | tail hab hbc ih => exact adjStep_mem_nodeIds hwf hbc
  calc (componentSet g n).ncard
      ≤ (↑(nodeIds g).toFinset : Set String).ncard :=
        Set.ncard_le_ncard hsub (Finset.finite_toSet _)
    _ = (nodeIds g).toFinset.card := Set.ncard_coe_Finset _
    _ ≤ (nodeIds g).length := List.toFinset_card_le _
    _ = g.nodes.length := by simp [nodeIds]

lemma filteredData_pos (g : GraphData) (t : Int) (ht : 0 < t) :
    filteredData g t =
      { nodes := g.nodes.filter (fun n => n.id ∈ (filterFold g t).2),
        links := g.links.filter (fun l =>
          l.source ∈ (filterFold g t).2 ∧ l.target ∈ (filterFold g t).2) } := by
  unfold filteredData
  rw [if_neg (by omega)]

/-- C1: for every well-formed logical graph and integer threshold `t`, the
component filter keeps a node iff its connected component has size `≥ t`,
keeps exactly the links whose two endpoints are kept nodes, returns the
input unchanged at threshold 0, and returns an empty graph when `t`
exceeds the total node count. -/
theorem c1_component_filter (g : GraphData) (t : Int) (hwf : WfGraph g) :
    (∀ n ∈ g.nodes, 0 < t →
      (n ∈ (filteredData g t).nodes ↔ t ≤ ((componentSet g n.id).ncard : Int))) ∧
    (∀ l ∈ g.links, 0 < t →
      (l ∈ (filteredData g t).links ↔
        (∃ a ∈ (filteredData g t).nodes, a.id = l.source) ∧
        (∃ b ∈ (filteredData g t).nodes, b.id = l.target))) ∧
    filteredData g 0 = g ∧
    ((g.nodes.length : Int) < t →
      (filteredData g t).nodes = [] ∧ (filteredData g t).links = []) := by
  obtain ⟨hkeep, hfst⟩ := filterFold_spec g t hwf
  have hmemN : ∀ (n : AssemblyNode), 0 < t →
      (n ∈ (filteredData g t).nodes ↔ n ∈ g.nodes ∧ n.id ∈ (filterFold g t).2) := by
    intro n ht
    rw [filteredData_pos g t ht]
    simp [List.mem_filter]
  have hmemL : ∀ (l : AssemblyLink), 0 < t →
      (l ∈ (filteredData g t).links ↔ l ∈ g.links ∧
        l.source ∈ (filterFold g t).2 ∧ l.target ∈ (filterFold g t).2) := by
    intro l ht
    rw [filteredData_pos g t ht]
    simp [List.mem_filter]
  refine ⟨?_, ?_, ?_, ?_⟩
  · intro n hn ht
    rw [hmemN n ht]
    constructor
    · rintro ⟨-, hk⟩
      exact ((hkeep n.id).mp hk).2
    · intro hsz
      exact ⟨hn, (hkeep n.id).mpr ⟨hfst n hn, hsz⟩⟩
  · intro l hl ht
    have hsrc : l.source ∈ (filterFold g t).2 ↔
        ∃ a ∈ (filteredData g t).nodes, a.id = l.source := by
      constructor
      · intro hk
        obtain ⟨a, ha, haid⟩ := List.mem_map.mp (hwf l hl).1
        exact ⟨a, (hmemN a ht).mpr ⟨ha, haid ▸ hk⟩, haid⟩
      · rintro ⟨a, haf, hid⟩
        exact hid ▸ ((hmemN a ht).mp haf).2
    have htgt : l.target ∈ (filterFold g t).2 ↔
        ∃ b ∈ (filteredData g t).nodes, b.id = l.target := by
      constructor
      · intro hk
        obtain ⟨b, hb, hbid⟩ := List.mem_map.mp (hwf l hl).2
        exact ⟨b, (hmemN b ht).mpr ⟨hb, hbid ▸ hk⟩, hbid⟩
      · rintro ⟨b, hbf, hid⟩
        exact hid ▸ ((hmemN b ht).mp hbf).2
    rw [hmemL l ht, ← hsrc, ← htgt]
    tauto
  · simp [filteredData]
  · intro hlt
    have ht : 0 < t := by
      have h0 : (0 : Int) ≤ (g.nodes.length : Int) := Int.natCast_nonneg _
      omega
    constructor
    · rw [filteredData_pos g t ht]
      refine List.filter_eq_nil_iff.mpr ?_
      intro n hn
      simp only [decide_eq_true_eq]
      intro hk
      have hsz := ((hkeep n.id).mp hk).2
      have hb := componentSet_ncard_le g hwf (List.mem_map.mpr ⟨n, hn, rfl⟩)
      omega
    · rw [filteredData_pos g t ht]
      refine List.filter_eq_nil_iff.mpr ?_
      intro l hl
      simp only [decide_eq_true_eq]
      rintro ⟨hks, -⟩
      have hsz := ((hkeep l.source).mp hks).2
      have hb := componentSet_ncard_le g hwf (hwf l hl).1
      omega

theorem c1_component_filter_witness :
    WfGraph gW ∧ filteredData gW 0 = gW :=
  ⟨by unfold WfGraph; decide,
   (c1_component_filter gW 0 (by unfold WfGraph; decide)).2.2.1⟩

/-- C2 counterexample: rebuilding over a prior pinned point with the same
id reuses its position but resets the pinned state — the rebuilt
`A_start` has `fx = fy = none` although the prior point had
`fx = some 5, fy = some 6`, so the fixed/unfixed state is not reused. -/
theorem c2_rebuild_counterexample :
    ((buildSimGraph [priorP] fdA s0 draw0).1.map
        (fun q => (q.id, q.x, q.y, q.fx, q.fy))) =
      [("A_start", (1 : ℝ), (2 : ℝ), (none : Option ℝ), (none : Option ℝ)),
       ("A_end", (0 : ℝ) + 1 * getVisualLength s0 ((0 : Nat) : ℝ) / 2,
         (0 : ℝ) + 0 * getVisualLength s0 ((0 : Nat) : ℝ) / 2,
         (none : Option ℝ), (none : Option ℝ))] ∧
    priorP.fx = some 5 ∧ priorP.fy = some 6 ∧
    (none : Option ℝ) ≠ some 5 := by
  refine ⟨?_, rfl, rfl, by simp⟩
  rfl

/-- C2 (amended): on every rebuild, a sim point whose id already exists in
the prior point set keeps its position (`x`, `y`) unchanged, and only new
ids receive the synthesized random placement; the pinned state, however,
is always reset — every rebuilt point carries `fx = fy = none`. -/
theorem c2_rebuild_preserves_positions (prior : List SimulationNode)
    (fd : GraphData) (settings : GraphSettings) (draw : String → FreshDraw)
    (node : AssemblyNode) (hn : node ∈ fd.nodes) :
    startNodeOf prior settings draw node ∈ (buildSimGraph prior fd settings draw).1 ∧
    endNodeOf prior settings draw node ∈ (buildSimGraph prior fd settings draw).1 ∧
    (∀ p, prior.find? (fun m => m.id == node.id ++ "_start") = some p →
      (startNodeOf prior settings draw node).x = p.x ∧
      (startNodeOf prior settings draw node).y = p.y) ∧
    (∀ p, prior.find? (fun m => m.id == node.id ++ "_end") = some p →
      (endNodeOf prior settings draw node).x = p.x ∧
      (endNodeOf prior settings draw node).y = p.y) ∧
    (startNodeOf prior settings draw node).fx = none ∧
    (startNodeOf prior settings draw node).fy = none ∧
    (endNodeOf prior settings draw node).fx = none ∧
    (endNodeOf prior settings draw node).fy = none ∧
    (prior.find? (fun m => m.id == node.id ++ "_start") = none →
      (startNodeOf prior settings draw node).x =
        (draw node.id).cx -
          (draw node.id).c * getVisualLength settings (node.length : ℝ) / 2 ∧
      (startNodeOf prior settings draw node).y =
        (draw node.id).cy -
          (draw node.id).s * getVisualLength settings (node.length : ℝ) / 2) ∧
    (prior.find? (fun m => m.id == node.id ++ "_end") = none →
      (endNodeOf prior settings draw node).x =
        (draw node.id).cx +
          (draw node.id).c * getVisualLength settings (node.length : ℝ) / 2 ∧
      (endNodeOf prior settings draw node).y =
        (draw node.id).cy +
          (draw node.id).s * getVisualLength settings (node.length : ℝ) / 2) := by
  refine ⟨?_, ?_, ?_, ?_, rfl, rfl, rfl, rfl, ?_, ?_⟩
  · exact List.mem_flatMap.mpr ⟨node, hn, by simp⟩
  · exact List.mem_flatMap.mpr ⟨node, hn, by simp⟩
  · intro p hp
    constructor <;> simp [startNodeOf, hp]
  · intro p hp
    constructor <;> simp [endNodeOf, hp]
  · intro hp
    constructor <;> simp [startNodeOf, hp]
  · intro hp
    constructor <;> simp [endNodeOf, hp]

theorem c2_rebuild_witness :
    (⟨"A", 0, 0⟩ : AssemblyNode) ∈ fdA.nodes ∧
    ((startNodeOf [priorP] s0 draw0 ⟨"A", 0, 0⟩ ∈
        (buildSimGraph [priorP] fdA s0 draw0).1) ∧
      (startNodeOf [priorP] s0 draw0 ⟨"A", 0, 0⟩).fx = none) :=
  ⟨by decide,
   (c2_rebuild_preserves_positions [priorP] fdA s0 draw0 ⟨"A", 0, 0⟩ (by decide)).1,
   (c2_rebuild_preserves_positions [priorP] fdA s0 draw0 ⟨"A", 0, 0⟩ (by decide)).2.2.2.2.1⟩

/-- C6 counterexample: a dangling link is not dropped — the rebuild passes
it through as an edge constraint whose target `X_start` matches no sim
point; no warning/skip path exists in the repository code. -/
theorem c6_dangling_counterexample :
    ((buildSimGraph [] (filteredData gDang 0) s0 draw0).2.map
        (fun l => (l.source, l.target, l.type))) =
      [("A_start", "A_end", "backbone"), ("A_end", "X_start", "edge")] ∧
    ((buildSimGraph [] (filteredData gDang 0) s0 draw0).1.map SimulationNode.id)
        = ["A_start", "A_end"] ∧
    "X_start" ∉
      ((buildSimGraph [] (filteredData gDang 0) s0 draw0).1.map SimulationNode.id) := by
  refine ⟨rfl, rfl, ?_⟩
  intro h
  rw [show ((buildSimGraph [] (filteredData gDang 0) s0 draw0).1.map SimulationNode.id)
      = ["A_start", "A_end"] from rfl] at h
  simp at h

/-- C6 (amended): every filtered link is converted, unconditionally, into
exactly one edge constraint with endpoints `<source>_end`/`<target>_start`;
no existence check, drop, or warning happens while building the constraint
set, so constraints referencing missing point ids are handed to the force
engine as-is. -/
theorem c6_dangling_links (prior : List SimulationNode) (fd : GraphData)
    (settings : GraphSettings) (draw : String → FreshDraw) :
    (((buildSimGraph prior fd settings draw).2.filter
        (fun l => l.type == "edge")).map (fun l => (l.source, l.target))) =
      fd.links.map (fun l => (l.source ++ "_end", l.target ++ "_start")) := by
  unfold buildSimGraph
  rw [List.filter_append]
  have h1 : (fd.nodes.map backboneOf).filter (fun l => l.type == "edge") = [] := by
    refine List.filter_eq_nil_iff.mpr ?_
    intro l hl
    obtain ⟨n, _, rfl⟩ := List.mem_map.mp hl
    simp [backboneOf]
  have h2 : (fd.links.enum.map (fun p => edgeOf p.1 p.2)).filter
      (fun l => l.type == "edge") = fd.links.enum.map (fun p => edgeOf p.1 p.2) := by
    refine List.filter_eq_self.mpr ?_
    intro l hl
    obtain ⟨p, _, rfl⟩ := List.mem_map.mp hl
    simp [edgeOf]
  rw [h1, h2, List.nil_append, List.map_map]
  have h3 : ((fun l => (l.source, l.target)) ∘ (fun p : Nat × AssemblyLink => edgeOf p.1 p.2))
      = (fun l : AssemblyLink => (l.source ++ "_end", l.target ++ "_start")) ∘ Prod.snd := by
    funext p
    simp [edgeOf, Function.comp]
  rw [h3, ← List.map_map, List.enum_map_snd]

lemma string_data_ext {a b : String} (h : a.data = b.data) : a = b := by
  cases a
  cases b
  simp_all

lemma strAppend_cancel {a b c : String} (h : a ++ c = b ++ c) : a = b := by
  have hd : a.data ++ c.data = b.data ++ c.data := congrArg String.data h
  exact string_data_ext (List.append_cancel_right hd)

lemma start_ne_end (a b : String) : a ++ "_start" ≠ b ++ "_end" := by
  intro h
  have hd : a.data ++ ("_start" : String).data
      = b.data ++ ("_end" : String).data := congrArg String.data h
  have h1 := congrArg List.getLast? hd
  rw [List.getLast?_append_of_ne_nil _ (by decide),
    List.getLast?_append_of_ne_nil _ (by decide)] at h1
  exact absurd h1 (by decide)

/-- C3: on brush release a retained node is selected iff at least one of
its two sim points, mapped to screen space by `x*k+translateX`,
`y*k+translateY`, lies inside the committed rectangle (OR test); in
particular, with points at (0,0) and (100,100) under the identity
transform, the rectangle (−10,−10)–(50,50) selects only the node owning
the first point. -/
theorem c3_brush_selection :
    (∀ (simNodes : List SimulationNode) (nodes : List AssemblyNode)
        (tr : ViewTransform) (x0 y0 x1 y1 : ℝ) (node : AssemblyNode)
        (s e : SimulationNode),
      simNodes.find? (fun m => m.id == node.id ++ "_start") = some s →
      simNodes.find? (fun m => m.id == node.id ++ "_end") = some e →
      (node ∈ brushSelect simNodes nodes tr x0 y0 x1 y1 ↔
        node ∈ nodes ∧ (InRect tr x0 y0 x1 y1 s ∨ InRect tr x0 y0 x1 y1 e))) ∧
    (⟨"N1", 1, 0⟩ : AssemblyNode) ∈ brushSelect simEx nodesEx trId (-10) (-10) 50 50 ∧
    (⟨"N2", 1, 0⟩ : AssemblyNode) ∉ brushSelect simEx nodesEx trId (-10) (-10) 50 50 := by
  have hgen : ∀ (simNodes : List SimulationNode) (nodes : List AssemblyNode)
      (tr : ViewTransform) (x0 y0 x1 y1 : ℝ) (node : AssemblyNode)
      (s e : SimulationNode),
      simNodes.find? (fun m => m.id == node.id ++ "_start") = some s →
      simNodes.find? (fun m => m.id == node.id ++ "_end") = some e →
      (node ∈ brushSelect simNodes nodes tr x0 y0 x1 y1 ↔
        node ∈ nodes ∧ (InRect tr x0 y0 x1 y1 s ∨ InRect tr x0 y0 x1 y1 e)) := by
    intro simNodes nodes tr x0 y0 x1 y1 node s e hs he
    unfold brushSelect
    rw [List.mem_filter]
    unfold brushHit
    rw [hs, he]
    simp only [decide_eq_true_eq]
  refine ⟨hgen, ?_, ?_⟩
  · rw [hgen simEx nodesEx trId (-10) (-10) 50 50 ⟨"N1", 1, 0⟩
      ⟨"N1_start", "N1", "start", 0, 0, none, none, 1⟩
      ⟨"N1_end", "N1", "end", 0, 0, none, none, 1⟩ rfl rfl]
    refine ⟨by decide, Or.inl ?_⟩
    unfold InRect trId
    norm_num
  · rw [hgen simEx nodesEx trId (-10) (-10) 50 50 ⟨"N2", 1, 0⟩
      ⟨"N2_start", "N2", "start", 100, 100, none, none, 1⟩
      ⟨"N2_end", "N2", "end", 100, 100, none, none, 1⟩ rfl rfl]
    unfold InRect trId
    norm_num

theorem c3_brush_selection_witness :
    simEx.find? (fun m => m.id == ("N1" : String) ++ "_start")
        = some ⟨"N1_start", "N1", "start", 0, 0, none, none, 1⟩ ∧
    ((⟨"N1", 1, 0⟩ : AssemblyNode) ∈ brushSelect simEx nodesEx trId (-10) (-10) 50 50 ↔
      (⟨"N1", 1, 0⟩ : AssemblyNode) ∈ nodesEx ∧
        (InRect trId (-10) (-10) 50 50 ⟨"N1_start", "N1", "start", 0, 0, none, none, 1⟩ ∨
         InRect trId (-10) (-10) 50 50 ⟨"N1_end", "N1", "end", 0, 0, none, none, 1⟩)) :=
  ⟨rfl, c3_brush_selection.1 simEx nodesEx trId (-10) (-10) 50 50 ⟨"N1", 1, 0⟩
    ⟨"N1_start", "N1", "start", 0, 0, none, none, 1⟩
    ⟨"N1_end", "N1", "end", 0, 0, none, none, 1⟩ rfl rfl⟩

lemma applyDelta_id (dx dy : ℝ) (p : SimulationNode) :
    (applyDelta dx dy p).id = p.id := rfl

lemma updateFirst_eq (sim : List SimulationNode) (pid : String)
    (f : SimulationNode → SimulationNode)
    (hsim : (sim.map SimulationNode.id).Nodup) :
    updateFirst sim pid f = sim.map (fun q => if q.id = pid then f q else q) := by
  induction sim with
  | nil => rfl
  | cons p rest ih =>
    simp only [List.map_cons, List.nodup_cons] at hsim
    simp only [updateFirst, List.map_cons]
    by_cases hp : p.id = pid
    · rw [if_pos hp, if_pos hp]
      congr 1
      have hrest : ∀ q ∈ rest, (if q.id = pid then f q else q) = q := by
        intro q hq
        rw [if_neg]
        intro hqe
        apply hsim.1
        rw [hp, ← hqe]
        exact List.mem_map.mpr ⟨q, hq, rfl⟩
      rw [List.map_congr_left hrest]
      simp
    · rw [if_neg hp, if_neg hp, ih hsim.2]

lemma dragStep_eq (dx dy : ℝ) (sim : List SimulationNode) (n : AssemblyNode)
    (hsim : (sim.map SimulationNode.id).Nodup) :
    dragStep dx dy sim n =
      sim.map (fun q => if TouchedBy n sim q then applyDelta dx dy q else q) := by
  unfold dragStep
  cases hfs : sim.find? (fun m => m.id == n.id ++ "_start") with
  | none =>
    have hnoS : ¬ ∃ a ∈ sim, a.id = n.id ++ "_start" := by
      rintro ⟨a, ha, haid⟩
      have := List.find?_eq_none.mp hfs a ha
      simp [haid] at this
    have : ∀ q ∈ sim, (if TouchedBy n sim q then applyDelta dx dy q else q) = q := by
      intro q hq
      rw [if_neg]
      rintro ⟨-, hS, -⟩
      exact hnoS hS
    rw [List.map_congr_left this]
    simp
  | some s =>
    cases hfe : sim.find? (fun m => m.id == n.id ++ "_end") with
    | none =>
      have hnoE : ¬ ∃ b ∈ sim, b.id = n.id ++ "_end" := by
        rintro ⟨b, hb, hbid⟩
        have := List.find?_eq_none.mp hfe b hb
        simp [hbid] at this
      have : ∀ q ∈ sim, (if TouchedBy n sim q then applyDelta dx dy q else q) = q := by
        intro q hq
        rw [if_neg]
        rintro ⟨-, -, hE⟩
        exact hnoE hE
      rw [List.map_congr_left this]
      simp
    | some e =>
      have hps := List.find?_some hfs
      have hpe := List.find?_some hfe
      have hS : ∃ a ∈ sim, a.id = n.id ++ "_start" :=
        ⟨s, List.mem_of_find?_eq_some hfs, eq_of_beq hps⟩
      have hE : ∃ b ∈ sim, b.id = n.id ++ "_end" :=
        ⟨e, List.mem_of_find?_eq_some hfe, eq_of_beq hpe⟩
      rw [updateFirst_eq sim _ _ hsim]
      have hsim2 : ((sim.map (fun q => if q.id = n.id ++ "_start"
          then applyDelta dx dy q else q)).map SimulationNode.id)
          = sim.map SimulationNode.id := by
        rw [List.map_map]
        refine List.map_congr_left ?_
        intro q _
        by_cases hq : q.id = n.id ++ "_start" <;> simp [Function.comp, hq, applyDelta_id]
      rw [updateFirst_eq _ _ _ (by rw [hsim2]; exact hsim), List.map_map]
      refine List.map_congr_left ?_
      intro q hq
      simp only [Function.comp]
      by_cases h1 : q.id = n.id ++ "_start"
      · rw [if_pos h1]
        have hne : (applyDelta dx dy q).id ≠ n.id ++ "_end" := by
          rw [applyDelta_id, h1]
          exact start_ne_end n.id n.id
        rw [if_neg hne, if_pos ⟨Or.inl h1, hS, hE⟩]
      · rw [if_neg h1]
        by_cases h2 : q.id = n.id ++ "_end"
        · rw [if_pos h2, if_pos ⟨Or.inr h2, hS, hE⟩]
        · rw [if_neg h2, if_neg (fun hT => ?_)]
          rcases hT.1 with hc | hc
          · exact h1 hc
          · exact h2 hc

lemma dragStep_ids (dx dy : ℝ) (sim : List SimulationNode) (n : AssemblyNode)
    (hsim : (sim.map SimulationNode.id).Nodup) :
    (dragStep dx dy sim n).map SimulationNode.id = sim.map SimulationNode.id := by
  rw [dragStep_eq dx dy sim n hsim, List.map_map]
  refine List.map_congr_left ?_
  intro q _
  by_cases h : TouchedBy n sim q <;> simp [Function.comp, h, applyDelta_id]

lemma find?_self_of_nodup (sim : List SimulationNode) (q : SimulationNode)
    (hsim : (sim.map SimulationNode.id).Nodup) (hq : q ∈ sim) :
    sim.find? (fun m => m.id == q.id) = some q := by
  induction sim with
  | nil => cases hq
  | cons p rest ih =>
    simp only [List.map_cons, List.nodup_cons] at hsim
    rcases List.mem_cons.mp hq with rfl | hq2
    · simp [List.find?]
    · have hpq : (p.id == q.id) = false := by
        refine beq_eq_false_iff_ne.mpr ?_
        intro h
        exact hsim.1 (h ▸ List.mem_map.mpr ⟨q, hq2, rfl⟩)
      simp only [List.find?, hpq]
      exact ih hsim.2 hq2

lemma foldl_dragStep_spec (dx dy : ℝ) :
    ∀ (selected : List AssemblyNode) (sim : List SimulationNode),
    (sim.map SimulationNode.id).Nodup →
    (selected.map AssemblyNode.id).Nodup →
    ((selected.foldl (dragStep dx dy) sim).map SimulationNode.id
        = sim.map SimulationNode.id) ∧
    (∀ n ∈ selected,
      (∃ a ∈ sim, a.id = n.id ++ "_start") →
      (∃ b ∈ sim, b.id = n.id ++ "_end") →
      ∀ q ∈ sim, (q.id = n.id ++ "_start" ∨ q.id = n.id ++ "_end") →
        (selected.foldl (dragStep dx dy) sim).find? (fun m => m.id == q.id)
          = some (applyDelta dx dy q)) ∧
    (∀ q ∈ sim, (∀ n ∈ selected, q.id ≠ n.id ++ "_start" ∧ q.id ≠ n.id ++ "_end") →
      (selected.foldl (dragStep dx dy) sim).find? (fun m => m.id == q.id)
        = some q) := by
  intro selected
  induction selected with
  | nil =>
    intro sim hsim _
    refine ⟨rfl, by simp, ?_⟩
    intro q hq _
    exact find?_self_of_nodup sim q hsim hq
  | cons n rest ih =>
    intro sim hsim hsel
    simp only [List.foldl_cons]
    simp only [List.map_cons, List.nodup_cons] at hsel
    have hstep := dragStep_eq dx dy sim n hsim
    have hids := dragStep_ids dx dy sim n hsim
    have hsim2 : ((dragStep dx dy sim n).map SimulationNode.id).Nodup := by
      rw [hids]
      exact hsim
    obtain ⟨k1, k2, k3⟩ := ih (dragStep dx dy sim n) hsim2 hsel.2
    refine ⟨by rw [k1, hids], ?_, ?_⟩
    · intro m hm hS hE q hq hqid
      rcases List.mem_cons.mp hm with rfl | hm2
      · have hT : TouchedBy m sim q := ⟨hqid, hS, hE⟩
        have hq2 : applyDelta dx dy q ∈ dragStep dx dy sim m := by
          rw [hstep]
          exact List.mem_map.mpr ⟨q, hq, if_pos hT⟩
        have huntouched : ∀ m2 ∈ rest, (applyDelta dx dy q).id ≠ m2.id ++ "_start" ∧
            (applyDelta dx dy q).id ≠ m2.id ++ "_end" := by
          intro m2 hm2
          rw [applyDelta_id]
          have hmm : m.id ≠ m2.id := by
            intro h
            exact hsel.1 (h ▸ List.mem_map.mpr ⟨m2, hm2, rfl⟩)
          rcases hqid with h | h <;> rw [h]
          · exact ⟨fun hc => hmm (strAppend_cancel hc),
              fun hc => start_ne_end m.id m2.id hc⟩
          · exact ⟨fun hc => start_ne_end m2.id m.id hc.symm,
              fun hc => hmm (strAppend_cancel hc)⟩
        exact k3 (applyDelta dx dy q) hq2 huntouched
      · have hmm : n.id ≠ m.id := by
          intro h
          exact hsel.1 (h ▸ List.mem_map.mpr ⟨m, hm2, rfl⟩)
        have hnotT : ∀ r ∈ sim, (r.id = m.id ++ "_start" ∨ r.id = m.id ++ "_end") →
            ¬ TouchedBy n sim r := by
          rintro r hr hrid ⟨hc, -, -⟩
          rcases hrid with h | h <;> rcases hc with h2 | h2 <;> rw [h] at h2
          · exact hmm (strAppend_cancel h2).symm
          · exact start_ne_end m.id n.id h2
          · exact start_ne_end n.id m.id h2.symm
          · exact hmm (strAppend_cancel h2).symm
        have hmem2 : ∀ r ∈ sim, (r.id = m.id ++ "_start" ∨ r.id = m.id ++ "_end") →
            r ∈ dragStep dx dy sim n := by
          intro r hr hrid
          rw [hstep]
          exact List.mem_map.mpr ⟨r, hr, if_neg (hnotT r hr hrid)⟩
        obtain ⟨a, ha, haid⟩ := hS
        obtain ⟨b, hb, hbid⟩ := hE
        exact k2 m hm2 ⟨a, hmem2 a ha (Or.inl haid), haid⟩
          ⟨b, hmem2 b hb (Or.inr hbid), hbid⟩ q (hmem2 q hq hqid) hqid
    · intro q hq hunt
      have hnotTq : ¬ TouchedBy n sim q := by
        rintro ⟨hc, -, -⟩
        rcases hc with h | h
        · exact (hunt n (List.mem_cons_self n rest)).1 h
        · exact (hunt n (List.mem_cons_self n rest)).2 h
      have hq2 : q ∈ dragStep dx dy sim n := by
        rw [hstep]
        exact List.mem_map.mpr ⟨q, hq, if_neg hnotTq⟩
      exact k3 q hq2 (fun m hm => hunt m (List.mem_cons_of_mem n hm))

/-- C4: dragging a selected group by screen delta `(edx, edy)` under zoom
`k` translates both sim points of every selected node (whose two points
are present) by exactly `(edx/k, edy/k)`, translates their pinned
coordinates by the same delta when pinned, and leaves every point not
belonging to a selected node unchanged. -/
theorem c4_group_drag (selected : List AssemblyNode) (sim : List SimulationNode)
    (edx edy k : ℝ)
    (hsim : (sim.map SimulationNode.id).Nodup)
    (hsel : (selected.map AssemblyNode.id).Nodup) :
    (∀ q, (applyDelta (edx / k) (edy / k) q).x = q.x + edx / k ∧
       (applyDelta (edx / k) (edy / k) q).y = q.y + edy / k ∧
       (applyDelta (edx / k) (edy / k) q).fx = q.fx.map (fun v => v + edx / k) ∧
       (applyDelta (edx / k) (edy / k) q).fy = q.fy.map (fun v => v + edy / k)) ∧
    (∀ n ∈ selected, (∃ a ∈ sim, a.id = n.id ++ "_start") →
      (∃ b ∈ sim, b.id = n.id ++ "_end") →
      ∀ q ∈ sim, (q.id = n.id ++ "_start" ∨ q.id = n.id ++ "_end") →
        (groupDrag selected sim edx edy k).find? (fun m => m.id == q.id)
          = some (applyDelta (edx / k) (edy / k) q)) ∧
    (∀ q ∈ sim, (∀ n ∈ selected, q.id ≠ n.id ++ "_start" ∧ q.id ≠ n.id ++ "_end") →
      (groupDrag selected sim edx edy k).find? (fun m => m.id == q.id)
        = some q) := by
  obtain ⟨-, k2, k3⟩ := foldl_dragStep_spec (edx / k) (edy / k) selected sim hsim hsel
  exact ⟨fun q => ⟨rfl, rfl, rfl, rfl⟩, k2, k3⟩

theorem c4_group_drag_witness :
    (simEx.map SimulationNode.id).Nodup ∧
    (([⟨"N1", 1, 0⟩] : List AssemblyNode).map AssemblyNode.id).Nodup ∧
    (groupDrag [⟨"N1", 1, 0⟩] simEx 4 6 2).find?
        (fun m => m.id == ("N1_start" : String))
      = some (applyDelta ((4 : ℝ) / 2) ((6 : ℝ) / 2)
          ⟨"N1_start", "N1", "start", 0, 0, none, none, 1⟩) :=
  ⟨by decide, by decide,
   (c4_group_drag [⟨"N1", 1, 0⟩] simEx 4 6 2 (by decide) (by decide)).2.1
     ⟨"N1", 1, 0⟩ (List.mem_cons_self _ _)
     ⟨⟨"N1_start", "N1", "start", 0, 0, none, none, 1⟩,
       by unfold simEx; exact List.mem_cons_self _ _, rfl⟩
     ⟨⟨"N1_end", "N1", "end", 0, 0, none, none, 1⟩,
       by unfold simEx; exact List.mem_cons_of_mem _ (List.mem_cons_self _ _), rfl⟩
     ⟨"N1_start", "N1", "start", 0, 0, none, none, 1⟩
     (by unfold simEx; exact List.mem_cons_self _ _) (Or.inl rfl)⟩

/-- C7 counterexample: with graph `A-B, C` and threshold 2, the filtered
graph is `{A,B}`, yet searching for `C` selects node `C` — the selection
is not restricted to the current filtered graph and nothing drops the
stale id, so the selection set is not a subset of the filtered node ids
after a search. -/
theorem c7_selection_counterexample :
    ((filteredData gW 2).nodes.map AssemblyNode.id) = ["A", "B"] ∧
    ((handleSearchIds gW "C").map AssemblyNode.id) = ["C"] ∧
    "C" ∉ ((filteredData gW 2).nodes.map AssemblyNode.id) := by
  refine ⟨by decide, by decide, by decide⟩

/-- C7 (amended): brush selection always yields a subset of the currently
filtered nodes, and search always yields a subset of the full data node
set — but search is not restricted to the filtered graph and no operation
prunes selected ids that filtering removed, so the subset invariant holds
only for brush/click selections, not after a search or threshold change. -/
theorem c7_selection_subset (g : GraphData) (t : Int)
    (simNodes : List SimulationNode) (tr : ViewTransform) (x0 y0 x1 y1 : ℝ)
    (input : String) :
    (∀ node, node ∈ brushSelect simNodes ((filteredData g t).nodes) tr x0 y0 x1 y1 →
      node ∈ (filteredData g t).nodes) ∧
    (∀ node, node ∈ handleSearchIds g input → node ∈ g.nodes) := by
  constructor
  · intro node h
    exact (List.mem_filter.mp h).1
  · intro node h
    exact (List.mem_filter.mp h).1

theorem c7_selection_subset_witness :
    (⟨"A", 3, 0⟩ : AssemblyNode) ∈ handleSearchIds gW "A" ∧
    (⟨"A", 3, 0⟩ : AssemblyNode) ∈ gW.nodes :=
  ⟨by decide,
   (c7_selection_subset gW 2 [] trId 0 0 0 0 "A").2 ⟨"A", 3, 0⟩ (by decide)⟩

/-- C8: with a positive length scale, the backbone target length
`20 + bp^0.4 · scale · 20` is strictly increasing in the base-pair length
(preserving relative ordering of contigs), and sub-linear: scaling the
length by any factor `c > 1` grows the visual length by strictly less
than `c`, so long contigs do not dominate linearly. -/
theorem c8_visual_length_monotone (settings : GraphSettings)
    (hscale : 0 < settings.nodeLengthScale) :
    (∀ a b : ℝ, 0 ≤ a → a < b →
      getVisualLength settings a < getVisualLength settings b) ∧
    (∀ x c : ℝ, 0 < x → 1 < c →
      getVisualLength settings (c * x) < c * getVisualLength settings x) := by
  constructor
  · intro a b h0a hab
    have hpow : Real.rpow a 0.4 < Real.rpow b 0.4 :=
      Real.rpow_lt_rpow h0a hab (by norm_num)
    have h1 : Real.rpow a 0.4 * settings.nodeLengthScale <
        Real.rpow b 0.4 * settings.nodeLengthScale :=
      mul_lt_mul_of_pos_right hpow hscale
    unfold getVisualLength
    nlinarith
  · intro x c hx hc
    have hcx : Real.rpow (c * x) 0.4 = Real.rpow c 0.4 * Real.rpow x 0.4 :=
      Real.mul_rpow (by linarith) (le_of_lt hx)
    have hclt : Real.rpow c 0.4 < c := by
      have h1 : Real.rpow c 0.4 < Real.rpow c 1 :=
        Real.rpow_lt_rpow_of_exponent_lt hc (by norm_num)
      rwa [show Real.rpow c 1 = c from Real.rpow_one c] at h1
    have hxpos : 0 < Real.rpow x 0.4 := Real.rpow_pos_of_pos hx _
    have hterm : Real.rpow c 0.4 * Real.rpow x 0.4 < c * Real.rpow x 0.4 :=
      mul_lt_mul_of_pos_right hclt hxpos
    unfold getVisualLength
    rw [hcx]
    nlinarith

theorem c8_visual_length_monotone_witness :
    0 < s0.nodeLengthScale ∧ getVisualLength s0 1 < getVisualLength s0 2 :=
  ⟨by norm_num [s0],
   (c8_visual_length_monotone s0 (by norm_num [s0])).1 1 2 (by norm_num) (by norm_num)⟩

/-- C10: for every base-pair length `bp ≥ 0` and non-negative length
scale, the visual backbone length is at least the base offset 20, and a
contig of length 0 receives exactly 20 — no node degenerates to a
zero-length segment. -/
theorem c10_visual_length_lower_bound (settings : GraphSettings) (bp : ℝ)
    (hbp : 0 ≤ bp) (hscale : 0 ≤ settings.nodeLengthScale) :
    20 ≤ getVisualLength settings bp ∧ getVisualLength settings 0 = 20 := by
  constructor
  · unfold getVisualLength
    have h1 : 0 ≤ Real.rpow bp 0.4 := Real.rpow_nonneg hbp _
    nlinarith
  · unfold getVisualLength
    rw [show Real.rpow 0 0.4 = 0 from Real.zero_rpow (by norm_num)]
    ring

theorem c10_visual_length_lower_bound_witness :
    (0 : ℝ) ≤ 1 ∧ 0 ≤ s0.nodeLengthScale ∧ 20 ≤ getVisualLength s0 1 :=
  ⟨by norm_num, by norm_num [s0],
   (c10_visual_length_lower_bound s0 1 (by norm_num) (by norm_num [s0])).1⟩

/-- C9 counterexample: with an empty input graph and threshold 1 the
graph-hidden flag is true, although this is the no-data case and
filtering removed nothing — the flag does not distinguish "all filtered
out" from "no data". -/
theorem c9_hidden_counterexample :
    hiddenByMinNodes { nodes := [], links := [] } 1 = true ∧
    (GraphData.nodes { nodes := [], links := [] }) = [] :=
  ⟨by decide, rfl⟩

/-- C9 (amended): the graph-hidden flag is true exactly when the
threshold is positive and the filtered node set is empty — including the
case of an empty input, so "no data" is distinguished only while the
threshold is not positive. -/
theorem c9_hidden_flag (g : GraphData) (t : Int) :
    hiddenByMinNodes g t = true ↔ 0 < t ∧ (filteredData g t).nodes = [] := by
  unfold hiddenByMinNodes
  simp [List.length_eq_zero]

lemma d2_nonneg (p q : SimulationNode) : 0 ≤ d2 p q := by
  unfold d2
  nlinarith [mul_self_nonneg (p.x - q.x), mul_self_nonneg (p.y - q.y)]

lemma repulse_aux (alpha strength : ℝ) (p : SimulationNode) :
    ∀ (pts : List SimulationNode) (a b : ℝ),
    pts.foldl
      (fun acc q =>
        if q.id = p.id then acc
        else if d2 p q = 0 then (acc.1 + strength * alpha, acc.2)
        else (acc.1 + strength * alpha * (p.x - q.x) / d2 p q,
              acc.2 + strength * alpha * (p.y - q.y) / d2 p q))
      (a, b)
    = (a + strength * alpha * (pts.map (xterm p)).sum,
       b + strength * alpha * (pts.map (yterm p)).sum) := by
  intro pts
  induction pts with
  | nil =>
    intro a b
    simp
  | cons q rest ih =>
    intro a b
    simp only [List.foldl_cons, List.map_cons, List.sum_cons]
    by_cases h1 : q.id = p.id
    · dsimp only
      rw [if_pos h1, ih]
      simp only [xterm, yterm, if_pos h1, Prod.mk.injEq]
      constructor <;> ring
    · by_cases h2 : d2 p q = 0
      · dsimp only
        rw [if_neg h1, if_pos h2, ih]
        simp only [xterm, yterm, if_neg h1, if_pos h2, Prod.mk.injEq]
        constructor <;> ring
      · dsimp only
        rw [if_neg h1, if_neg h2, ih]
        simp only [xterm, yterm, if_neg h1, if_neg h2, Prod.mk.injEq]
        constructor <;> ring

lemma repulse_eq (alpha strength : ℝ) (pts : List SimulationNode)
    (p : SimulationNode) :
    repulse alpha strength pts p =
      (strength * alpha * (pts.map (xterm p)).sum,
       strength * alpha * (pts.map (yterm p)).sum) := by
  unfold repulse
  rw [repulse_aux]
  simp

lemma list_sum_pos_of_mem {l : List ℝ} (hnn : ∀ x ∈ l, 0 ≤ x) {x : ℝ}
    (hx : x ∈ l) (hpos : 0 < x) : 0 < l.sum := by
  induction l with
  | nil => cases hx
  | cons a rest ih =>
    rw [List.sum_cons]
    rcases List.mem_cons.mp hx with rfl | hx2
    · have h1 := List.sum_nonneg (fun y hy => hnn y (List.mem_cons_of_mem _ hy))
      linarith
    · have ha := hnn a (List.mem_cons_self _ _)
      have h2 := ih (fun y hy => hnn y (List.mem_cons_of_mem _ hy)) hx2
      linarith

lemma exists_lex_max (pts : List SimulationNode) (hne : pts ≠ []) :
    ∃ p ∈ pts, ∀ q ∈ pts, q.x < p.x ∨ (q.x = p.x ∧ q.y ≤ p.y) := by
  induction pts with
  | nil => exact absurd rfl hne
  | cons a rest ih =>
    rcases eq_or_ne rest [] with rfl | hrest
    · refine ⟨a, List.mem_cons_self _ _, ?_⟩
      intro q hq
      rcases List.mem_cons.mp hq with rfl | h
      · exact Or.inr ⟨rfl, le_refl _⟩
      · simp at h
    · obtain ⟨m, hm, hmax⟩ := ih hrest
      by_cases hcmp : a.x < m.x ∨ (a.x = m.x ∧ a.y ≤ m.y)
      · refine ⟨m, List.mem_cons_of_mem _ hm, ?_⟩
        intro q hq
        rcases List.mem_cons.mp hq with rfl | hq2
        · exact hcmp
        · exact hmax q hq2
      · push_neg at hcmp
        refine ⟨a, List.mem_cons_self _ _, ?_⟩
        intro q hq
        rcases List.mem_cons.mp hq with rfl | hq2
        · exact Or.inr ⟨rfl, le_refl _⟩
        · have h := hmax q hq2
          rcases lt_or_eq_of_le hcmp.1 with hlt | heq
          · rcases h with h | ⟨hqx, _⟩
            · exact Or.inl (by linarith)
            · exact Or.inl (by linarith)
          · have hay : m.y < a.y := hcmp.2 heq.symm
            rcases h with h | ⟨hqx, hqy⟩
            · exact Or.inl (by linarith)
            · exact Or.inr ⟨by linarith, by linarith⟩

lemma exists_other_id (L : List SimulationNode)
    (hnodup : (L.map SimulationNode.id).Nodup) (hlen : 2 ≤ L.length)
    (p : SimulationNode) (hp : p ∈ L) : ∃ q ∈ L, q.id ≠ p.id := by
  match L, hlen with
  | a :: b :: rest, _ =>
    simp only [List.map_cons, List.nodup_cons, List.mem_cons (a := a.id),
      List.mem_map] at hnodup
    by_cases hap : a.id = p.id
    · refine ⟨b, List.mem_cons_of_mem _ (List.mem_cons_self _ _), ?_⟩
      intro hbp
      exact hnodup.1 (Or.inl (by rw [hbp, hap]))
    · exact ⟨a, List.mem_cons_self _ _, hap⟩

/-- C5: while frozen, no integration step runs — any number of scheduled
frames leaves the engine (and so every point position) unchanged; a
rebuild performed while frozen (brush mode) leaves the engine frozen with
the new point set installed; unfreezing turns the engine back on with the
bounded reheating energy 0.1, and the next settled step then moves at
least one non-pinned point whenever repulsion is non-zero and more than
one point exists (points at pairwise distinct ids, all unpinned — pins
exist only during an active drag gesture, which cannot coincide with a
settled step). -/
theorem c5_freeze_unfreeze (e : ForceLayoutEngine) :
    (e.running = false → ∀ k : Nat, frame^[k] e = e) ∧
    (∀ pts, (rebuildEngine true e pts).running = false ∧
      (rebuildEngine true e pts).points = pts) ∧
    ((unfreeze e).running = true ∧ (unfreeze e).alpha = 1 / 10) ∧
    ((e.points.map SimulationNode.id).Nodup →
      2 ≤ e.points.length →
      (∀ p ∈ e.points, p.fx = none ∧ p.fy = none) →
      e.chargeStrength ≠ 0 →
      ∃ p ∈ e.points, ∃ p2 ∈ (stepOnce (unfreeze e)).points,
        p2.id = p.id ∧ (p2.x ≠ p.x ∨ p2.y ≠ p.y)) := by
  refine ⟨?_, fun pts => ⟨rfl, rfl⟩, ⟨rfl, rfl⟩, ?_⟩
  · intro hstop k
    induction k with
    | zero => rfl
    | succ k ih =>
      rw [Function.iterate_succ_apply, show frame e = e from by simp [frame, hstop], ih]
  · intro hnodup hlen hfree hs
    have hne : e.points ≠ [] := by
      intro h
      rw [h] at hlen
      simp at hlen
    obtain ⟨p, hp, hmax⟩ := exists_lex_max e.points hne
    have hfx := (hfree p hp).1
    have hfy := (hfree p hp).2
    have hx2 : (stepPoint (unfreeze e) p).x
        = p.x + e.chargeStrength * (1 / 10) * ((e.points.map (xterm p)).sum) := by
      simp only [stepPoint, hfx, hfy]
      rw [show (unfreeze e).points = e.points from rfl, repulse_eq]
      rfl
    have hy2 : (stepPoint (unfreeze e) p).y
        = p.y + e.chargeStrength * (1 / 10) * ((e.points.map (yterm p)).sum) := by
      simp only [stepPoint, hfx, hfy]
      rw [show (unfreeze e).points = e.points from rfl, repulse_eq]
      rfl
    have hid2 : (stepPoint (unfreeze e) p).id = p.id := by
      simp only [stepPoint, hfx, hfy]
    have hsa : e.chargeStrength * (1 / 10) ≠ 0 := by
      exact mul_ne_zero hs (by norm_num)
    have hxnn : ∀ q ∈ e.points, 0 ≤ xterm p q := by
      intro q hq
      unfold xterm
      by_cases hid : q.id = p.id
      · rw [if_pos hid]
      · rw [if_neg hid]
        by_cases hd : d2 p q = 0
        · rw [if_pos hd]
          norm_num
        · rw [if_neg hd]
          refine div_nonneg ?_ (d2_nonneg p q)
          rcases hmax q hq with h | ⟨h, -⟩
          · linarith
          · linarith
    refine ⟨p, hp, stepPoint (unfreeze e) p, List.mem_map_of_mem _ hp, hid2, ?_⟩
    by_cases hSx : 0 < (e.points.map (xterm p)).sum
    · left
      rw [hx2]
      have : e.chargeStrength * (1 / 10) * ((e.points.map (xterm p)).sum) ≠ 0 :=
        mul_ne_zero hsa (ne_of_gt hSx)
      intro hcontra
      apply this
      linarith
    · have hnnmap : ∀ x ∈ e.points.map (xterm p), 0 ≤ x := by
        intro x hx
        obtain ⟨q, hq, rfl⟩ := List.mem_map.mp hx
        exact hxnn q hq
      have hSx0 : (e.points.map (xterm p)).sum = 0 :=
        le_antisymm (not_lt.mp hSx) (List.sum_nonneg hnnmap)
      have hall0 : ∀ q ∈ e.points, xterm p q = 0 := by
        intro q hq
        by_contra hne0
        have hpos : 0 < xterm p q := lt_of_le_of_ne (hxnn q hq) (Ne.symm hne0)
        have := list_sum_pos_of_mem hnnmap (List.mem_map_of_mem _ hq) hpos
        rw [hSx0] at this
        exact lt_irrefl 0 this
      have hfacts : ∀ q ∈ e.points, q.id ≠ p.id → d2 p q ≠ 0 ∧ p.x - q.x = 0 := by
        intro q hq hid
        have h0 := hall0 q hq
        unfold xterm at h0
        rw [if_neg hid] at h0
        by_cases hd : d2 p q = 0
        · rw [if_pos hd] at h0
          norm_num at h0
        · rw [if_neg hd] at h0
          refine ⟨hd, ?_⟩
          rcases div_eq_zero_iff.mp h0 with h | h
          · exact h
          · exact absurd h hd
      obtain ⟨q0, hq0, hq0id⟩ := exists_other_id e.points hnodup hlen p hp
      have hynn : ∀ q ∈ e.points, 0 ≤ yterm p q := by
        intro q hq
        unfold yterm
        by_cases hid : q.id = p.id
        · rw [if_pos hid]
        · rw [if_neg hid]
          have hf := hfacts q hq hid
          rw [if_neg hf.1]
          refine div_nonneg ?_ (d2_nonneg p q)
          rcases hmax q hq with h | ⟨-, h⟩
          · linarith [hf.2]
          · linarith
      have hypos : 0 < yterm p q0 := by
        unfold yterm
        rw [if_neg hq0id]
        have hf := hfacts q0 hq0 hq0id
        rw [if_neg hf.1]
        have hdy : 0 < p.y - q0.y := by
          rcases hmax q0 hq0 with h | ⟨-, h⟩
          · linarith [hf.2]
          · rcases lt_or_eq_of_le h with h2 | h2
            · linarith
            · exfalso
              apply hf.1
              unfold d2
              have hdx := hf.2
              rw [hdx, h2]
              ring
        refine div_pos hdy (lt_of_le_of_ne (d2_nonneg p q0) (Ne.symm hf.1))
      have hSy : 0 < (e.points.map (yterm p)).sum := by
        refine list_sum_pos_of_mem ?_ (List.mem_map_of_mem _ hq0) hypos
        intro x hx
        obtain ⟨q, hq, rfl⟩ := List.mem_map.mp hx
        exact hynn q hq
      right
      rw [hy2]
      have : e.chargeStrength * (1 / 10) * ((e.points.map (yterm p)).sum) ≠ 0 :=
        mul_ne_zero hsa (ne_of_gt hSy)
      intro hcontra
      apply this
      linarith

theorem c5_freeze_unfreeze_witness :
    ((engEx.points.map SimulationNode.id).Nodup ∧ 2 ≤ engEx.points.length ∧
      (∀ p ∈ engEx.points, p.fx = none ∧ p.fy = none) ∧
      engEx.chargeStrength ≠ 0) ∧
    (∃ p ∈ engEx.points, ∃ p2 ∈ (stepOnce (unfreeze engEx)).points,
      p2.id = p.id ∧ (p2.x ≠ p.x ∨ p2.y ≠ p.y)) := by
  have h3 : ∀ p ∈ engEx.points, p.fx = none ∧ p.fy = none := by
    intro p hp
    rw [show engEx.points = [⟨"a", "a", "start", 0, 0, none, none, 1⟩,
      ⟨"b", "b", "start", 1, 0, none, none, 1⟩] from rfl] at hp
    rcases List.mem_cons.mp hp with rfl | hp
    · exact ⟨rfl, rfl⟩
    rcases List.mem_cons.mp hp with rfl | hp
    · exact ⟨rfl, rfl⟩
    · simp at hp
  have h4 : engEx.chargeStrength ≠ 0 := by
    rw [show engEx.chargeStrength = -30 from rfl]
    norm_num
  exact ⟨⟨by decide, by decide, h3, h4⟩,
    (c5_freeze_unfreeze engEx).2.2.2 (by decide) (by decide) h3 h4⟩
